import Mathlib

/-!
Verification of the arboric scheduling core (`arboric/core/autopilot.py`,
`arboric/core/constraints.py`, `arboric/core/models.py`).

Conventions of the shallow embedding:
* Python floats are modelled as `ℚ` (all arithmetic in the scheduler is
  exact on the rationals appearing in the claims).
* `datetime` values are modelled as rational numbers of hours since an
  arbitrary epoch; `timedelta(hours = h)` becomes addition of `h`.
* A pandas `DataFrame` holding the forecast is modelled as a
  `List ForecastSample` ordered as the frame's rows; the datetime index is
  the `ts` field of each sample.
* `raise`/exception control flow is modelled with `Except ArboricError`.
* Python's `float("inf")` score sentinel is modelled as `Option ℚ` with
  `none` standing for the infinite score.
-/

namespace Arboric

instance {ε α : Type} [DecidableEq ε] [DecidableEq α] : DecidableEq (Except ε α) :=
  fun x y =>
    match x, y with
    | .ok a, .ok b =>
      if h : a = b then .isTrue (by rw [h]) else .isFalse (by simp [h])
    | .error a, .error b =>
      if h : a = b then .isTrue (by rw [h]) else .isFalse (by simp [h])
    | .ok _, .error _ => .isFalse (by simp)
    | .error _, .ok _ => .isFalse (by simp)

/-- Python `int()` applied to a rational: truncation toward zero. -/
def pyInt (q : ℚ) : ℤ := if 0 ≤ q then ⌊q⌋ else ⌈q⌉

/-- Normalise one bound of a Python slice `l[a:b]` for a list of length `n`:
negative indices count from the end, and bounds are clamped to `[0, n]`. -/
def pyBound (n : ℕ) (i : ℤ) : ℕ :=
  if i < 0 then ((n : ℤ) + i).toNat else min i.toNat n

/-- Python slice `l[a:b]` (step 1) with full negative-index and clamping
semantics, as used by `DataFrame.iloc[a:b]`. -/
def pySlice {α : Type} (l : List α) (a b : ℤ) : List α :=
  (l.take (pyBound l.length b)).drop (pyBound l.length a)

/-- Arithmetic mean of a list of rationals (`pandas.Series.mean` on a
non-empty column; the empty case is never reached by the scheduler). -/
def mean (xs : List ℚ) : ℚ := xs.sum / xs.length

/-- `WorkloadPriority` from `models.py`. -/
inductive WorkloadPriority where
  | critical
  | high
  | normal
  | low
deriving DecidableEq, Repr

/-- `WorkloadDependency` from `models.py`.  Workload identifiers (UUIDs in
the source) are modelled as natural numbers. -/
structure WorkloadDependency where
  source_workload_id : ℕ
  depends_on_completion : Bool
  min_delay_hours : ℚ
deriving DecidableEq, Repr

/-- `Workload` from `models.py` (the fields the scheduler reads). -/
structure Workload where
  id : ℕ
  name : String
  duration_hours : ℚ
  power_draw_kw : ℚ
  deadline_hours : ℚ
  priority : WorkloadPriority
  dependencies : List WorkloadDependency
deriving DecidableEq, Repr

/-- `Workload.energy_kwh` (derived property). -/
def Workload.energy_kwh (w : Workload) : ℚ := w.power_draw_kw * w.duration_hours

/-- One row of the forecast `DataFrame`: timestamp (hours), `price` and
`co2_intensity` columns. -/
structure ForecastSample where
  ts : ℚ
  price : ℚ
  co2_intensity : ℚ
deriving DecidableEq, Repr

/-- `OptimizationConfig` from `autopilot.py` (the fields the algorithm
reads; `prefer_continuous` is inert in the source). -/
structure OptimizationConfig where
  price_weight : ℚ
  carbon_weight : ℚ
  min_delay_hours : ℚ
deriving DecidableEq, Repr

/-- The default configuration (`DEFAULT_PRICE_WEIGHT = 0.7`,
`DEFAULT_CARBON_WEIGHT = 0.3`, `min_delay_hours = 0`). -/
def defaultConfig : OptimizationConfig :=
  { price_weight := 7/10, carbon_weight := 3/10, min_delay_hours := 0 }

/-- `ScheduleResult` from `models.py` (stored fields only; savings and
delay are derived below, as in the source). -/
structure ScheduleResult where
  workload : Workload
  optimal_start : ℚ
  optimal_end : ℚ
  baseline_start : ℚ
  baseline_end : ℚ
  optimized_cost : ℚ
  optimized_carbon_kg : ℚ
  optimized_avg_price : ℚ
  optimized_avg_carbon : ℚ
  baseline_cost : ℚ
  baseline_carbon_kg : ℚ
  baseline_avg_price : ℚ
  baseline_avg_carbon : ℚ
deriving DecidableEq, Repr

/-- `ScheduleResult.cost_savings` (derived property). -/
def ScheduleResult.cost_savings (r : ScheduleResult) : ℚ :=
  r.baseline_cost - r.optimized_cost

/-- `ScheduleResult.carbon_savings_kg` (derived property). -/
def ScheduleResult.carbon_savings_kg (r : ScheduleResult) : ℚ :=
  r.baseline_carbon_kg - r.optimized_carbon_kg

/-- `ScheduleResult.cost_savings_percent` (derived property). -/
def ScheduleResult.cost_savings_percent (r : ScheduleResult) : ℚ :=
  if r.baseline_cost = 0 then 0 else r.cost_savings / r.baseline_cost * 100

/-- `ScheduleResult.carbon_savings_percent` (derived property). -/
def ScheduleResult.carbon_savings_percent (r : ScheduleResult) : ℚ :=
  if r.baseline_carbon_kg = 0 then 0
  else r.carbon_savings_kg / r.baseline_carbon_kg * 100

/-- `ScheduleResult.delay_hours` (derived property). -/
def ScheduleResult.delay_hours (r : ScheduleResult) : ℚ :=
  r.optimal_start - r.baseline_start

/-- The error conditions raised by the scheduling core.  The source raises
`ValueError` subclasses; the constructors record which `raise` site fired
(and the data its message names). -/
inductive ArboricError where
  /-- `optimize_schedule`: "Forecast data is empty". -/
  | emptyForecast
  /-- `_build_graph`: unknown or self-referential prerequisite
  (`InvalidDependencyError`). -/
  | invalidDependency
  /-- `_validate_graph` or `topological_sort`: cycle detected
  (`CircularDependencyError`). -/
  | circularDependency
  /-- `_apply_dependency_constraints`: dependencies force a start too late
  for the deadline (user-facing infeasibility). -/
  | deadlineInfeasible (name : String) (earliest_start deadline : ℚ)
  /-- `_apply_dependency_constraints`: shifted forecast became empty; the
  message names the prerequisites' completion time and the forecast end. -/
  | horizonTooShort (name : String) (earliest_start forecast_end : ℚ)
  /-- `_apply_dependency_constraints`: a prerequisite is missing from the
  completed-schedules map ("This indicates a bug"): internal invariant. -/
  | missingPrereq (name : String) (prereq : ℕ)
  /-- `_validate_schedule_constraints`: post-hoc constraint violation:
  internal invariant. -/
  | constraintViolation (name : String) (actual_start min_start : ℚ)
  /-- Python `KeyError` from direct dict indexing
  (`dep_graph.workloads[workload_id]` in `optimize_fleet`,
  `completed_schedules[...]` in `_validate_schedule_constraints`):
  unreachable in the verified regime. -/
  | keyError (k : ℕ)
deriving DecidableEq, Repr

/-- Comparison `score < best_score` on scores where `none` is
`float("inf")`. -/
def scoreLt : Option ℚ → Option ℚ → Bool
  | some a, some b => a < b
  | some _, none => true
  | none, _ => false

/-- `Autopilot._calculate_window_score`: composite score, total cost and
total carbon of a forecast slice for a workload.  The score is `none`
(infinite) exactly on the empty slice. -/
def calculateWindowScore (cfg : OptimizationConfig) (slice : List ForecastSample)
    (w : Workload) : Option ℚ × ℚ × ℚ :=
  if slice = [] then (none, 0, 0)
  else
    let avg_price := mean (slice.map ForecastSample.price)
    let avg_carbon := mean (slice.map ForecastSample.co2_intensity)
    let energy_kwh := w.energy_kwh
    let total_cost := avg_price * energy_kwh
    let total_carbon_kg := avg_carbon * energy_kwh / 1000
    let price_normalized := min (avg_price / (3/10)) 1 * 100
    let carbon_normalized := min (avg_carbon / 600) 1 * 100
    let composite := price_normalized * cfg.price_weight
      + carbon_normalized * cfg.carbon_weight
    (some composite, total_cost, total_carbon_kg)

/-- Time resolution of the forecast: spacing of the first two samples,
defaulting to one hour when fewer than two samples exist. -/
def resolutionHours : List ForecastSample → ℚ
  | a :: b :: _ => b.ts - a.ts
  | _ => 1

/-- `windows_needed = max(1, int(duration_hours / resolution_hours))`. -/
def windowsNeeded (w : Workload) (res : ℚ) : ℕ :=
  max 1 (pyInt (w.duration_hours / res)).toNat

/-- The deadline-capping loop of `optimize_schedule`: scan the forecast
from index `idx`; at the first sample whose window end exceeds the
deadline, cap the running `max_start_idx` at one less than that index and
stop. -/
def capStartIdx (dur deadline : ℚ) : List ForecastSample → ℤ → ℤ → ℤ
  | [], _, cur => cur
  | s :: rest, idx, cur =>
    if deadline < s.ts + dur then min cur (idx - 1)
    else capStartIdx dur deadline rest (idx + 1) cur

/-- `min_delay_windows = int(min_delay_hours / resolution_hours)`. -/
def minDelayWindows (cfg : OptimizationConfig) (res : ℚ) : ℤ :=
  pyInt (cfg.min_delay_hours / res)

/-- `max_start_idx`: starts at `len(forecast) - windows_needed` and is
capped by the deadline scan. -/
def maxStartIdx (w : Workload) (forecast : List ForecastSample)
    (deadline : ℚ) (wn : ℕ) : ℤ :=
  capStartIdx w.duration_hours deadline forecast 0 ((forecast.length : ℤ) - wn)

/-- The integers from `lo` to `hi` inclusive (Python `range(lo, hi + 1)`). -/
def intRange (lo hi : ℤ) : List ℤ :=
  (List.range (hi + 1 - lo).toNat).map (fun (k : ℕ) => lo + (k : ℤ))

/-- Mutable loop state of the window search in `optimize_schedule`. -/
structure SearchState where
  best_score : Option ℚ
  best_start_idx : ℤ
  best_cost : ℚ
  best_carbon : ℚ
deriving DecidableEq, Repr

/-- The window-search loop of `optimize_schedule`: for each candidate start
index, score the window of length `wn`; keep the strictly smallest score
(first-encountered wins); stop early if the window end overruns the
forecast. -/
def searchLoop (cfg : OptimizationConfig) (w : Workload)
    (forecast : List ForecastSample) (wn : ℕ) :
    List ℤ → SearchState → SearchState
  | [], st => st
  | i :: rest, st =>
    if (forecast.length : ℤ) < i + wn then st
    else
      let slice := pySlice forecast i (i + wn)
      let sc := calculateWindowScore cfg slice w
      let st' := if scoreLt sc.1 st.best_score
        then ⟨sc.1, i, sc.2.1, sc.2.2⟩ else st
      searchLoop cfg w forecast wn rest st'

/-- Timestamp at (relative) list position `k`; the default is never
reached in the verified regime. -/
def tsAt (l : List ForecastSample) (k : ℕ) : ℚ :=
  ((l.map ForecastSample.ts).getD k 0)

/-- Python `forecast_df.index[i]` with negative-index wrapping. -/
def tsGet (l : List ForecastSample) (i : ℤ) : ℚ :=
  if i < 0 then tsAt l ((l.length : ℤ) + i).toNat else tsAt l i.toNat

/-- `Autopilot.optimize_schedule`.  Logging calls are omitted (they only
append display strings).  The structure of the computation follows the
source line by line. -/
def optimize_schedule (cfg : OptimizationConfig) (w : Workload)
    (forecast : List ForecastSample) : Except ArboricError ScheduleResult :=
  match forecast with
  | [] => .error .emptyForecast
  | f0 :: _ =>
    let res := resolutionHours forecast
    let wn := windowsNeeded w res
    let baseline_start := f0.ts
    let deadline := baseline_start + w.deadline_hours
    if w.priority = .critical then
      let baseline_slice := forecast.take wn
      let sc := calculateWindowScore cfg baseline_slice w
      .ok
        { workload := w
          optimal_start := baseline_start
          optimal_end := baseline_start + w.duration_hours
          baseline_start := baseline_start
          baseline_end := baseline_start + w.duration_hours
          optimized_cost := sc.2.1
          optimized_carbon_kg := sc.2.2
          optimized_avg_price := mean (baseline_slice.map ForecastSample.price)
          optimized_avg_carbon := mean (baseline_slice.map ForecastSample.co2_intensity)
          baseline_cost := sc.2.1
          baseline_carbon_kg := sc.2.2
          baseline_avg_price := mean (baseline_slice.map ForecastSample.price)
          baseline_avg_carbon := mean (baseline_slice.map ForecastSample.co2_intensity) }
    else
      let baseline_slice := forecast.take wn
      let sc := calculateWindowScore cfg baseline_slice w
      let final := searchLoop cfg w forecast wn
        (intRange (minDelayWindows cfg res) (maxStartIdx w forecast deadline wn))
        ⟨none, 0, sc.2.1, sc.2.2⟩
      let optimal_start := tsGet forecast final.best_start_idx
      let optimal_slice := pySlice forecast final.best_start_idx
        (final.best_start_idx + wn)
      .ok
        { workload := w
          optimal_start := optimal_start
          optimal_end := optimal_start + w.duration_hours
          baseline_start := baseline_start
          baseline_end := baseline_start + w.duration_hours
          optimized_cost := final.best_cost
          optimized_carbon_kg := final.best_carbon
          optimized_avg_price := mean (optimal_slice.map ForecastSample.price)
          optimized_avg_carbon := mean (optimal_slice.map ForecastSample.co2_intensity)
          baseline_cost := sc.2.1
          baseline_carbon_kg := sc.2.2
          baseline_avg_price := mean (baseline_slice.map ForecastSample.price)
          baseline_avg_carbon := mean (baseline_slice.map ForecastSample.co2_intensity) }

/-! ### Basic lemmas about the search machinery -/

theorem pyInt_nonneg {q : ℚ} (h : 0 ≤ q) : 0 ≤ pyInt q := by
  simp only [pyInt, if_pos h]
  exact Int.le_floor.mpr (by exact_mod_cast h)

theorem intRange_eq_nil {lo hi : ℤ} (h : hi < lo) : intRange lo hi = [] := by
  simp only [intRange]
  have : (hi + 1 - lo).toNat = 0 := by omega
  simp [this]

theorem mem_intRange {lo hi i : ℤ} : i ∈ intRange lo hi ↔ lo ≤ i ∧ i ≤ hi := by
  constructor
  · intro h
    simp only [intRange, List.mem_map, List.mem_range] at h
    obtain ⟨k, hk, hki⟩ := h
    omega
  · intro h
    simp only [intRange, List.mem_map, List.mem_range]
    exact ⟨(i - lo).toNat, by omega, by omega⟩

theorem capStartIdx_le (d dl : ℚ) :
    ∀ (l : List ForecastSample) (idx cur : ℤ), capStartIdx d dl l idx cur ≤ cur := by
  intro l
  induction l with
  | nil => intro idx cur; simp [capStartIdx]
  | cons s rest ih =>
    intro idx cur
    simp only [capStartIdx]
    split
    · exact min_le_left _ _
    · exact ih (idx + 1) cur

theorem capStartIdx_spec (d dl : ℚ) :
    ∀ (l : List ForecastSample) (idx cur i : ℤ), idx ≤ i →
      i ≤ capStartIdx d dl l idx cur → (i - idx).toNat < l.length →
      tsAt l (i - idx).toNat + d ≤ dl := by
  intro l
  induction l with
  | nil => intro idx cur i _ _ h; simp at h
  | cons s rest ih =>
    intro idx cur i hle hcap hlen
    simp only [capStartIdx] at hcap
    split at hcap
    · omega
    · rename_i hnot
      push_neg at hnot
      rcases eq_or_lt_of_le hle with heq | hlt
      · have : (i - idx).toNat = 0 := by omega
        simpa [this, tsAt] using hnot
      · have h1 : idx + 1 ≤ i := hlt
        have h2 : (i - (idx + 1)).toNat < rest.length := by
          simp only [List.length_cons] at hlen; omega
        have := ih (idx + 1) cur i h1 hcap h2
        have hk : (i - idx).toNat = (i - (idx + 1)).toNat + 1 := by omega
        simpa [hk, tsAt] using this

theorem searchLoop_best (cfg : OptimizationConfig) (w : Workload)
    (forecast : List ForecastSample) (wn : ℕ) :
    ∀ (idxs : List ℤ) (st : SearchState),
      (searchLoop cfg w forecast wn idxs st).best_start_idx = st.best_start_idx ∨
      (searchLoop cfg w forecast wn idxs st).best_start_idx ∈ idxs := by
  intro idxs
  induction idxs with
  | nil => intro st; left; rfl
  | cons i rest ih =>
    intro st
    simp only [searchLoop]
    split
    · left; rfl
    · split
      · rcases ih _ with h | h
        · right; rw [h]; exact List.mem_cons_self _ _
        · right; exact List.mem_cons_of_mem _ h
      · rcases ih st with h | h
        · left; exact h
        · right; exact List.mem_cons_of_mem _ h

theorem tsGet_zero (f0 : ForecastSample) (rest : List ForecastSample) :
    tsGet (f0 :: rest) 0 = f0.ts := by
  simp [tsGet, tsAt]

theorem pySlice_zero (l : List ForecastSample) (wn : ℕ) :
    pySlice l 0 (wn : ℤ) = l.take wn := by
  have h0 : ¬ ((0 : ℤ) < 0) := by omega
  have h1 : ¬ ((wn : ℤ) < 0) := by omega
  simp only [pySlice, pyBound, if_neg h0, if_neg h1, Int.toNat_zero,
    Int.toNat_natCast, Nat.zero_min, List.drop_zero]
  rcases le_or_lt (wn : ℕ) l.length with h | h
  · rw [min_eq_left h]
  · rw [min_eq_right h.le, List.take_length, List.take_of_length_le h.le]

/-! ### Claim C4: the window scorer -/

/-- C4: for a non-empty forecast slice the window scorer returns
`total_cost = mean price × power_draw_kw × duration_hours`,
`total_carbon_kg = mean co2_intensity × power_draw_kw × duration_hours / 1000`,
and composite score
`min(mean price / 0.30, 1) × 100 × price_weight + min(mean co2 / 600, 1) × 100 × carbon_weight`;
for the empty slice it returns the infinite-score sentinel with zero cost
and carbon. -/
theorem calculateWindowScore_spec (cfg : OptimizationConfig)
    (slice : List ForecastSample) (w : Workload) :
    (slice ≠ [] →
      calculateWindowScore cfg slice w =
        (some (min (mean (slice.map ForecastSample.price) / (3/10)) 1 * 100 * cfg.price_weight
            + min (mean (slice.map ForecastSample.co2_intensity) / 600) 1 * 100 * cfg.carbon_weight),
          mean (slice.map ForecastSample.price) * w.power_draw_kw * w.duration_hours,
          mean (slice.map ForecastSample.co2_intensity) * w.power_draw_kw * w.duration_hours / 1000)) ∧
    (slice = [] → calculateWindowScore cfg slice w = (none, 0, 0)) := by
  constructor
  · intro h
    simp only [calculateWindowScore, if_neg h, Workload.energy_kwh]
    refine Prod.ext rfl (Prod.ext ?_ ?_) <;> simp <;> ring
  · intro h
    simp [calculateWindowScore, h]

theorem calculateWindowScore_spec_witness :
    calculateWindowScore defaultConfig
      [{ ts := 0, price := 3/10, co2_intensity := 600 }]
      { id := 0, name := "j", duration_hours := 3, power_draw_kw := 2,
        deadline_hours := 4, priority := .normal, dependencies := [] } =
      (some 100, 9/5, 18/5) := by
  rw [(calculateWindowScore_spec defaultConfig
    [{ ts := 0, price := 3/10, co2_intensity := 600 }]
    { id := 0, name := "j", duration_hours := 3, power_draw_kw := 2,
      deadline_hours := 4, priority := .normal, dependencies := [] }).1 (by decide)]
  norm_num [mean, defaultConfig]

/-! ### Python dictionaries as association lists

`dict` preserves first-insertion order of keys; inserting an existing key
replaces the value in place. -/

/-- Insert into a Python dict: replace in place if the key exists,
otherwise append. -/
def dictInsert {α : Type} (k : ℕ) (v : α) : List (ℕ × α) → List (ℕ × α)
  | [] => [(k, v)]
  | (k', v') :: rest =>
    if k' = k then (k, v) :: rest else (k', v') :: dictInsert k v rest

/-- Dict lookup. -/
def dictGet? {α : Type} (k : ℕ) : List (ℕ × α) → Option α
  | [] => none
  | (k', v) :: rest => if k' = k then some v else dictGet? k rest

/-- Dict iteration order of keys. -/
def dictKeys {α : Type} (d : List (ℕ × α)) : List ℕ := d.map Prod.fst

/-- Dict iteration order of values. -/
def dictValues {α : Type} (d : List (ℕ × α)) : List α := d.map Prod.snd

/-- `{w.id: w for w in workloads}`. -/
def workloadsDict (ws : List Workload) : List (ℕ × Workload) :=
  ws.foldl (fun d w => dictInsert w.id w d) []

/-- `self.adjacency_list[k].append(v)` (no-op on a missing key; the
builder initialises every key first, so the missing case is unreachable). -/
def dictAppend (k : ℕ) (v : ℕ) : List (ℕ × List ℕ) → List (ℕ × List ℕ)
  | [] => []
  | (k', l) :: rest =>
    if k' = k then (k', l ++ [v]) :: rest else (k', l) :: dictAppend k v rest

/-- Lookup in an adjacency dict, returning `[]` on a missing key (the
builder initialises every workload id, so lookups never miss). -/
def adjGet (adj : List (ℕ × List ℕ)) (n : ℕ) : List ℕ :=
  match adj with
  | [] => []
  | (k, l) :: rest => if k = n then l else adjGet rest n

/-! ### DependencyGraph: construction (`constraints.py`) -/

/-- The state of a constructed `DependencyGraph`: the workloads dict, the
forward adjacency (workload to its prerequisites) and the reverse
adjacency (prerequisite to its dependents). -/
structure DependencyGraph where
  workloads : List (ℕ × Workload)
  adjacency_list : List (ℕ × List ℕ)
  reverse_adjacency : List (ℕ × List ℕ)
deriving DecidableEq, Repr

/-- The inner loop of `_build_graph` over one workload's dependencies:
validate each prerequisite id (exists, not self), then append the edge to
both adjacency maps. -/
def processDepList (d : List (ℕ × Workload)) (w : Workload) :
    List WorkloadDependency → List (ℕ × List ℕ) × List (ℕ × List ℕ) →
    Except ArboricError (List (ℕ × List ℕ) × List (ℕ × List ℕ))
  | [], st => .ok st
  | dep :: deps, (adj, rev) =>
    if (dictGet? dep.source_workload_id d).isNone then .error .invalidDependency
    else if dep.source_workload_id = w.id then .error .invalidDependency
    else processDepList d w deps
      (dictAppend w.id dep.source_workload_id adj,
        dictAppend dep.source_workload_id w.id rev)

/-- The outer loop of `_build_graph` over `self.workloads.values()`. -/
def buildLoop (d : List (ℕ × Workload)) :
    List Workload → List (ℕ × List ℕ) × List (ℕ × List ℕ) →
    Except ArboricError (List (ℕ × List ℕ) × List (ℕ × List ℕ))
  | [], st => .ok st
  | w :: rest, st =>
    match processDepList d w w.dependencies st with
    | .error e => .error e
    | .ok st' => buildLoop d rest st'

/-- `DependencyGraph._build_graph` (applied to the workloads dict):
initialise an empty adjacency entry per workload id, then add every
dependency edge, validating as it goes. -/
def buildGraph (ws : List Workload) : Except ArboricError DependencyGraph :=
  let d := workloadsDict ws
  let init := (dictKeys d).map (fun k => (k, ([] : List ℕ)))
  match buildLoop d (dictValues d) (init, init) with
  | .error e => .error e
  | .ok (adj, rev) =>
    .ok { workloads := d, adjacency_list := adj, reverse_adjacency := rev }

/-! ### DependencyGraph: DFS cycle detection (`_validate_graph`) -/

/-- The loop of `has_cycle` over a node's prerequisites.  `recurse` is the
recursive call on an unvisited prerequisite (it receives the current
visited set and returns the updated one); `stack` is the DFS recursion
stack including the current node. -/
def childLoop (recurse : ℕ → List ℕ → Bool × List ℕ) (stack : List ℕ) :
    List ℕ → List ℕ → Bool × List ℕ
  | [], visited => (false, visited)
  | p :: rest, visited =>
    if p ∈ visited then
      if p ∈ stack then (true, visited)
      else childLoop recurse stack rest visited
    else
      match recurse p visited with
      | (true, v) => (true, v)
      | (false, v) => childLoop recurse stack rest v

/-- `has_cycle(node)` from `_validate_graph`: depth-first search with a
recursion stack; returns whether a back edge was found together with the
updated visited set.  The recursion stack is threaded as an explicit
ancestor list (the source removes the node from a shared set on exit,
which is the same discipline).  `fuel` bounds the recursion depth; each
nested call visits a fresh node, so any `fuel` larger than the number of
workloads is never exhausted (proved below). -/
def dfsNode (adj : List (ℕ × List ℕ)) : ℕ → ℕ → List ℕ → List ℕ → Bool × List ℕ
  | 0, _, visited, _ => (false, visited)
  | fuel + 1, n, visited, stack =>
    childLoop (fun p vis => dfsNode adj fuel p vis (n :: stack)) (n :: stack)
      (adjGet adj n) (n :: visited)

/-- The driver loop of `_validate_graph`: run `has_cycle` from every
not-yet-visited workload id; report whether any run found a cycle. -/
def validateLoop (adj : List (ℕ × List ℕ)) (fuel : ℕ) :
    List ℕ → List ℕ → Bool
  | [], _ => false
  | wid :: rest, visited =>
    if wid ∈ visited then validateLoop adj fuel rest visited
    else
      match dfsNode adj fuel wid visited [] with
      | (true, _) => true
      | (false, v) => validateLoop adj fuel rest v

/-- `DependencyGraph._validate_graph`: raise `CircularDependencyError`
when the DFS finds a back edge. -/
def validateGraph (g : DependencyGraph) : Except ArboricError Unit :=
  if validateLoop g.adjacency_list (g.workloads.length + 1)
      (dictKeys g.workloads) [] then
    .error .circularDependency
  else .ok ()

/-- `DependencyGraph.__init__`: build, then validate. -/
def dependencyGraphInit (ws : List Workload) : Except ArboricError DependencyGraph :=
  match buildGraph ws with
  | .error e => .error e
  | .ok g =>
    match validateGraph g with
    | .error e => .error e
    | .ok _ => .ok g

/-! ### DependencyGraph: topological sort (Kahn's algorithm) -/

/-- `in_degree[k] -= 1`. -/
def indegDec (k : ℕ) : List (ℕ × ℤ) → List (ℕ × ℤ)
  | [] => []
  | (k', v) :: rest =>
    if k' = k then (k', v - 1) :: rest else (k', v) :: indegDec k rest

/-- `in_degree[k]` (0 on a missing key; unreachable for built graphs). -/
def indegGet (k : ℕ) : List (ℕ × ℤ) → ℤ
  | [] => 0
  | (k', v) :: rest => if k' = k then v else indegGet k rest

/-- The inner loop of `topological_sort` over the dependents of the
dequeued node: decrement each dependent's in-degree, enqueueing it when
the in-degree reaches zero. -/
def processDependents : List ℕ → List (ℕ × ℤ) → List ℕ → List (ℕ × ℤ) × List ℕ
  | [], indeg, queue => (indeg, queue)
  | dep :: rest, indeg, queue =>
    let indeg' := indegDec dep indeg
    if indegGet dep indeg' = 0 then processDependents rest indeg' (queue ++ [dep])
    else processDependents rest indeg' queue

/-- The `while queue:` loop of `topological_sort`.  `fuel` bounds the
number of iterations; every iteration appends a fresh node to the output,
so any fuel exceeding the number of workloads is never exhausted (proved
below). -/
def kahnLoop (radj : List (ℕ × List ℕ)) :
    ℕ → List (ℕ × ℤ) → List ℕ → List ℕ → List ℕ
  | 0, _, _, order => order
  | fuel + 1, indeg, queue, order =>
    match queue with
    | [] => order
    | current :: rest =>
      let st := processDependents (adjGet radj current) indeg rest
      kahnLoop radj fuel st.1 st.2 (order ++ [current])

/-- `DependencyGraph.topological_sort`: Kahn's algorithm seeded with the
zero-in-degree nodes in dict order; raises `CircularDependencyError` when
the output misses nodes. -/
def topological_sort (g : DependencyGraph) : Except ArboricError (List ℕ) :=
  let indeg := g.adjacency_list.map (fun p => (p.1, (p.2.length : ℤ)))
  let queue := (indeg.filter (fun p => p.2 = 0)).map Prod.fst
  let order := kahnLoop g.reverse_adjacency (g.workloads.length + 1) indeg queue []
  if order.length = g.workloads.length then .ok order
  else .error .circularDependency

/-! ### Graph-level cycle predicates -/

/-- A dependency edge of the input fleet: the retained workload with id
`u` lists `v` as a prerequisite.  (Workloads sharing an id collapse to the
last one, as in the Python dict comprehension.) -/
def wsEdge (ws : List Workload) (u v : ℕ) : Prop :=
  ∃ w ∈ dictValues (workloadsDict ws),
    w.id = u ∧ ∃ d ∈ w.dependencies, d.source_workload_id = v

/-- The input fleet's dependency edges contain a cycle. -/
def wsHasCycle (ws : List Workload) : Prop :=
  ∃ u v, wsEdge ws u v ∧ Relation.ReflTransGen (wsEdge ws) v u

/-- Some retained workload has a dependency on an unknown workload id or
on itself (the two `InvalidDependencyError` conditions of
`_build_graph`). -/
def hasBadDep (ws : List Workload) : Prop :=
  ∃ w ∈ dictValues (workloadsDict ws), ∃ d ∈ w.dependencies,
    dictGet? d.source_workload_id (workloadsDict ws) = none ∨
    d.source_workload_id = w.id

instance (ws : List Workload) (u v : ℕ) : Decidable (wsEdge ws u v) :=
  decidable_of_iff (∃ w ∈ dictValues (workloadsDict ws),
    w.id = u ∧ ∃ d ∈ w.dependencies, d.source_workload_id = v) Iff.rfl

instance (ws : List Workload) : Decidable (hasBadDep ws) :=
  decidable_of_iff (∃ w ∈ dictValues (workloadsDict ws), ∃ d ∈ w.dependencies,
    dictGet? d.source_workload_id (workloadsDict ws) = none ∨
    d.source_workload_id = w.id) Iff.rfl

/-! ### Lemmas about the dict operations -/

@[simp] theorem dictKeys_nil {α : Type} : dictKeys ([] : List (ℕ × α)) = [] := rfl

@[simp] theorem dictKeys_cons {α : Type} (p : ℕ × α) (d : List (ℕ × α)) :
    dictKeys (p :: d) = p.1 :: dictKeys d := rfl

theorem dictGet?_eq_none_iff {α : Type} (k : ℕ) (d : List (ℕ × α)) :
    dictGet? k d = none ↔ k ∉ dictKeys d := by
  induction d with
  | nil => simp [dictGet?]
  | cons p rest ih =>
    obtain ⟨k', v⟩ := p
    by_cases h : k' = k
    · subst h
      simp [dictGet?]
    · have h' : ¬ k = k' := fun e => h e.symm
      simp only [dictGet?, if_neg h, dictKeys_cons, List.mem_cons]
      rw [ih, or_iff_right h']

theorem dictKeys_dictInsert {α : Type} (k : ℕ) (v : α) (d : List (ℕ × α)) :
    dictKeys (dictInsert k v d) =
      if k ∈ dictKeys d then dictKeys d else dictKeys d ++ [k] := by
  induction d with
  | nil => simp [dictInsert]
  | cons p rest ih =>
    obtain ⟨k', v'⟩ := p
    by_cases h : k' = k
    · subst h
      simp [dictInsert]
    · have h' : ¬ k = k' := fun e => h e.symm
      simp only [dictInsert, if_neg h, dictKeys_cons, List.mem_cons]
      rw [ih]
      by_cases hk : k ∈ dictKeys rest <;> simp [hk, h']

theorem dictKeys_nodup_dictInsert {α : Type} (k : ℕ) (v : α) (d : List (ℕ × α))
    (h : (dictKeys d).Nodup) : (dictKeys (dictInsert k v d)).Nodup := by
  rw [dictKeys_dictInsert]
  by_cases hk : k ∈ dictKeys d
  · simpa [hk] using h
  · rw [if_neg hk]
    refine List.Nodup.append h (List.nodup_singleton k) ?_
    intro a ha ha'
    simp only [List.mem_singleton] at ha'
    exact hk (ha' ▸ ha)

theorem foldl_workloadsDict_nodup (ws : List Workload) :
    ∀ d : List (ℕ × Workload), (dictKeys d).Nodup →
      (dictKeys (ws.foldl (fun d w => dictInsert w.id w d) d)).Nodup := by
  induction ws with
  | nil => intro d hd; simpa using hd
  | cons w rest ih =>
    intro d hd
    exact ih _ (dictKeys_nodup_dictInsert _ _ _ hd)

theorem workloadsDict_keys_nodup (ws : List Workload) :
    (dictKeys (workloadsDict ws)).Nodup :=
  foldl_workloadsDict_nodup ws [] (by simp)

theorem mem_dictInsert {α : Type} (p : ℕ × α) (k : ℕ) (v : α) :
    ∀ d : List (ℕ × α), p ∈ dictInsert k v d → p = (k, v) ∨ p ∈ d := by
  intro d
  induction d with
  | nil => intro h; simpa [dictInsert] using h
  | cons q rest ih =>
    obtain ⟨k', v'⟩ := q
    intro h
    by_cases hk : k' = k
    · subst hk
      simp only [dictInsert, if_pos, List.mem_cons] at h
      rcases h with h | h
      · exact .inl h
      · exact .inr (List.mem_cons_of_mem _ h)
    · simp only [dictInsert, if_neg hk, List.mem_cons] at h
      rcases h with h | h
      · exact .inr (by simp [h])
      · rcases ih h with h' | h'
        · exact .inl h'
        · exact .inr (List.mem_cons_of_mem _ h')

theorem foldl_workloadsDict_id (ws : List Workload) :
    ∀ d : List (ℕ × Workload), (∀ p ∈ d, p.2.id = p.1) →
      ∀ p ∈ ws.foldl (fun d w => dictInsert w.id w d) d, p.2.id = p.1 := by
  induction ws with
  | nil => intro d hd; simpa using hd
  | cons w rest ih =>
    intro d hd
    refine ih _ ?_
    intro p hp
    rcases mem_dictInsert p _ _ _ hp with h | h
    · simp [h]
    · exact hd p h

theorem workloadsDict_id (ws : List Workload) :
    ∀ p ∈ workloadsDict ws, p.2.id = p.1 :=
  foldl_workloadsDict_id ws [] (by simp)

theorem dictKeys_dictAppend (k : ℕ) (v : ℕ) (d : List (ℕ × List ℕ)) :
    dictKeys (dictAppend k v d) = dictKeys d := by
  induction d with
  | nil => simp [dictAppend]
  | cons p rest ih =>
    obtain ⟨k', l⟩ := p
    by_cases h : k' = k <;> simp [dictAppend, h, ih]

theorem adjGet_dictAppend (k : ℕ) (x : ℕ) (d : List (ℕ × List ℕ)) (u : ℕ) :
    adjGet (dictAppend k x d) u =
      if k = u ∧ k ∈ dictKeys d then adjGet d u ++ [x] else adjGet d u := by
  induction d with
  | nil => simp [dictAppend, adjGet]
  | cons p rest ih =>
    obtain ⟨k', l⟩ := p
    by_cases h : k' = k
    · subst h
      by_cases hu : k' = u
      · subst hu
        simp [dictAppend, adjGet]
      · simp [dictAppend, adjGet, hu]
    · have h' : ¬ k = k' := fun e => h e.symm
      simp only [dictAppend, if_neg h]
      by_cases hu : k' = u
      · subst hu
        simp [adjGet, ih, h']
      · simp only [adjGet, if_neg hu, ih, dictKeys_cons, List.mem_cons]
        by_cases hm : k ∈ dictKeys rest <;> simp [hm, h']

theorem adjGet_not_mem (d : List (ℕ × List ℕ)) (u : ℕ) (h : u ∉ dictKeys d) :
    adjGet d u = [] := by
  induction d with
  | nil => rfl
  | cons p rest ih =>
    obtain ⟨k, l⟩ := p
    simp only [dictKeys_cons, List.mem_cons] at h
    push_neg at h
    have hk : ¬ k = u := fun e => h.1 e.symm
    simp only [adjGet, if_neg hk]
    exact ih h.2

theorem adjGet_ne_nil_mem {d : List (ℕ × List ℕ)} {u : ℕ}
    (h : adjGet d u ≠ []) : u ∈ dictKeys d := by
  by_contra hm
  exact h (adjGet_not_mem d u hm)

theorem adjGet_init (keys : List ℕ) (u : ℕ) :
    adjGet (keys.map (fun k => (k, ([] : List ℕ)))) u = [] := by
  induction keys with
  | nil => rfl
  | cons k rest ih =>
    by_cases h : k = u <;> simp [adjGet, h, ih]

theorem indegDec_keys (k : ℕ) (d : List (ℕ × ℤ)) :
    dictKeys (indegDec k d) = dictKeys d := by
  induction d with
  | nil => simp [indegDec]
  | cons p rest ih =>
    obtain ⟨k', v⟩ := p
    by_cases h : k' = k <;> simp [indegDec, h, ih]

theorem indegGet_indegDec (k : ℕ) (d : List (ℕ × ℤ)) (v : ℕ) :
    indegGet v (indegDec k d) =
      if k = v ∧ k ∈ dictKeys d then indegGet v d - 1 else indegGet v d := by
  induction d with
  | nil => simp [indegDec, indegGet]
  | cons p rest ih =>
    obtain ⟨k', x⟩ := p
    by_cases h : k' = k
    · subst h
      by_cases hv : k' = v
      · subst hv
        simp [indegDec, indegGet]
      · simp [indegDec, indegGet, hv]
    · have h' : ¬ k = k' := fun e => h e.symm
      simp only [indegDec, if_neg h]
      by_cases hv : k' = v
      · subst hv
        simp [indegGet, ih, h']
      · simp only [indegGet, if_neg hv, ih, dictKeys_cons, List.mem_cons]
        by_cases hm : k ∈ dictKeys rest <;> simp [hm, h']

theorem indegGet_mapLen (adj : List (ℕ × List ℕ)) (v : ℕ) :
    indegGet v (adj.map (fun p => (p.1, (p.2.length : ℤ))))
      = ((adjGet adj v).length : ℤ) := by
  induction adj with
  | nil => simp [indegGet, adjGet]
  | cons p rest ih =>
    obtain ⟨k, l⟩ := p
    by_cases h : k = v <;> simp [indegGet, adjGet, h, ih]

/-! ### Lemmas about graph construction -/

/-- The two `InvalidDependencyError` conditions for a single dependency of
workload `w` against the workloads dict `d`. -/
def depBad (d : List (ℕ × Workload)) (w : Workload) (dep : WorkloadDependency) : Prop :=
  dictGet? dep.source_workload_id d = none ∨ dep.source_workload_id = w.id

theorem processDepList_error (d : List (ℕ × Workload)) (w : Workload) :
    ∀ (deps : List WorkloadDependency) (st : List (ℕ × List ℕ) × List (ℕ × List ℕ)) (e),
      processDepList d w deps st = .error e →
      e = .invalidDependency ∧ ∃ dep ∈ deps, depBad d w dep := by
  intro deps
  induction deps with
  | nil => intro st e h; simp [processDepList] at h
  | cons dep deps ih =>
    intro st e h
    obtain ⟨adj, rev⟩ := st
    simp only [processDepList] at h
    split at h
    · rename_i hnone
      cases h
      refine ⟨rfl, dep, List.mem_cons_self _ _, .inl ?_⟩
      simpa [Option.isNone_iff_eq_none] using hnone
    · split at h
      · rename_i hself
        cases h
        exact ⟨rfl, dep, List.mem_cons_self _ _, .inr hself⟩
      · obtain ⟨he, dep', hdep', hbad⟩ := ih _ _ h
        exact ⟨he, dep', List.mem_cons_of_mem _ hdep', hbad⟩

theorem processDepList_ok (d : List (ℕ × Workload)) (w : Workload) :
    ∀ (deps : List WorkloadDependency) (st : List (ℕ × List ℕ) × List (ℕ × List ℕ)),
      (∀ dep ∈ deps, ¬ depBad d w dep) →
      ∃ st', processDepList d w deps st = .ok st' := by
  intro deps
  induction deps with
  | nil => intro st _; exact ⟨st, rfl⟩
  | cons dep deps ih =>
    intro st hgood
    obtain ⟨adj, rev⟩ := st
    have hbad := hgood dep (List.mem_cons_self _ _)
    have hnone : ¬ (dictGet? dep.source_workload_id d).isNone = true := by
      simp only [Option.isNone_iff_eq_none]
      intro he
      exact hbad (.inl he)
    have hself : ¬ dep.source_workload_id = w.id := fun he => hbad (.inr he)
    simp only [processDepList, if_neg hnone, if_neg hself]
    exact ih _ (fun dep' hd => hgood dep' (List.mem_cons_of_mem _ hd))

theorem processDepList_keys (d : List (ℕ × Workload)) (w : Workload) :
    ∀ (deps : List WorkloadDependency) (adj rev adj' rev' : List (ℕ × List ℕ)),
      processDepList d w deps (adj, rev) = .ok (adj', rev') →
      dictKeys adj' = dictKeys adj ∧ dictKeys rev' = dictKeys rev := by
  intro deps
  induction deps with
  | nil =>
    intro adj rev adj' rev' h
    simp only [processDepList] at h
    cases h
    exact ⟨rfl, rfl⟩
  | cons dep deps ih =>
    intro adj rev adj' rev' h
    simp only [processDepList] at h
    split at h
    · cases h
    · split at h
      · cases h
      · obtain ⟨h1, h2⟩ := ih _ _ _ _ h
        rw [dictKeys_dictAppend] at h1
        rw [dictKeys_dictAppend] at h2
        exact ⟨h1, h2⟩

theorem source_mem_of_not_isNone {d : List (ℕ × Workload)} {k : ℕ}
    (h : ¬ (dictGet? k d).isNone = true) : k ∈ dictKeys d := by
  by_contra hm
  exact h (by simp [Option.isNone_iff_eq_none, (dictGet?_eq_none_iff k d).mpr hm])

theorem processDepList_adj_mem (d : List (ℕ × Workload)) (w : Workload) :
    ∀ (deps : List WorkloadDependency) (adj rev adj' rev' : List (ℕ × List ℕ)),
      processDepList d w deps (adj, rev) = .ok (adj', rev') →
      dictKeys adj = dictKeys d → w.id ∈ dictKeys d →
      ∀ u v, (v ∈ adjGet adj' u ↔
        v ∈ adjGet adj u ∨ (w.id = u ∧ ∃ dep ∈ deps, dep.source_workload_id = v)) := by
  intro deps
  induction deps with
  | nil =>
    intro adj rev adj' rev' h hk hw u v
    simp only [processDepList] at h
    cases h
    simp
  | cons dep deps ih =>
    intro adj rev adj' rev' h hk hw u v
    simp only [processDepList] at h
    split at h
    · cases h
    · split at h
      · cases h
      · have hk1 : dictKeys (dictAppend w.id dep.source_workload_id adj) = dictKeys d := by
          rw [dictKeys_dictAppend]; exact hk
        rw [ih _ _ _ _ h hk1 hw u v, adjGet_dictAppend, hk]
        by_cases hu : w.id = u
        · rw [if_pos ⟨hu, hw⟩]
          simp only [List.mem_append, List.mem_singleton, List.mem_cons,
            List.not_mem_nil, or_false]
          constructor
          · rintro ((hm | rfl) | ⟨hwu, dep', hd', rfl⟩)
            · exact .inl hm
            · exact .inr ⟨hu, dep, .inl rfl, rfl⟩
            · exact .inr ⟨hwu, dep', .inr hd', rfl⟩
          · rintro (hm | ⟨hwu, dep', (rfl | hd'), rfl⟩)
            · exact .inl (.inl hm)
            · exact .inl (.inr rfl)
            · exact .inr ⟨hwu, dep', hd', rfl⟩
        · rw [if_neg (fun hand => hu hand.1)]
          simp [hu]

theorem processDepList_rev_mem (d : List (ℕ × Workload)) (w : Workload) :
    ∀ (deps : List WorkloadDependency) (adj rev adj' rev' : List (ℕ × List ℕ)),
      processDepList d w deps (adj, rev) = .ok (adj', rev') →
      dictKeys rev = dictKeys d →
      ∀ u v, (v ∈ adjGet rev' u ↔
        v ∈ adjGet rev u ∨ (w.id = v ∧ ∃ dep ∈ deps, dep.source_workload_id = u)) := by
  intro deps
  induction deps with
  | nil =>
    intro adj rev adj' rev' h hk u v
    simp only [processDepList] at h
    cases h
    simp
  | cons dep deps ih =>
    intro adj rev adj' rev' h hk u v
    simp only [processDepList] at h
    split at h
    · cases h
    · split at h
      · cases h
      · rename_i hnone hself
        have hsrc : dep.source_workload_id ∈ dictKeys d := source_mem_of_not_isNone hnone
        have hk1 : dictKeys (dictAppend dep.source_workload_id w.id rev) = dictKeys d := by
          rw [dictKeys_dictAppend]; exact hk
        rw [ih _ _ _ _ h hk1 u v, adjGet_dictAppend, hk]
        by_cases hu : dep.source_workload_id = u
        · rw [if_pos ⟨hu, hsrc⟩]
          simp only [List.mem_append, List.mem_singleton, List.mem_cons,
            List.not_mem_nil, or_false]
          constructor
          · rintro ((hm | rfl) | ⟨hv, dep', hd', hs'⟩)
            · exact .inl hm
            · exact .inr ⟨rfl, dep, .inl rfl, hu⟩
            · exact .inr ⟨hv, dep', .inr hd', hs'⟩
          · rintro (hm | ⟨hv, dep', (rfl | hd'), hs'⟩)
            · exact .inl (.inl hm)
            · exact .inl (.inr hv.symm)
            · exact .inr ⟨hv, dep', hd', hs'⟩
        · rw [if_neg (fun hand => hu hand.1)]
          simp only [List.mem_cons]
          constructor
          · rintro (hm | ⟨hv, dep', hd', hs'⟩)
            · exact .inl hm
            · exact .inr ⟨hv, dep', .inr hd', hs'⟩
          · rintro (hm | ⟨hv, dep', (rfl | hd'), hs'⟩)
            · exact .inl hm
            · exact absurd hs' hu
            · exact .inr ⟨hv, dep', hd', hs'⟩

theorem processDepList_transpose (d : List (ℕ × Workload)) (w : Workload) :
    ∀ (deps : List WorkloadDependency) (adj rev adj' rev' : List (ℕ × List ℕ)),
      processDepList d w deps (adj, rev) = .ok (adj', rev') →
      dictKeys adj = dictKeys d → dictKeys rev = dictKeys d → w.id ∈ dictKeys d →
      (∀ u v, (adjGet adj u).count v = (adjGet rev v).count u) →
      ∀ u v, (adjGet adj' u).count v = (adjGet rev' v).count u := by
  intro deps
  induction deps with
  | nil =>
    intro adj rev adj' rev' h _ _ _ htr u v
    simp only [processDepList] at h
    cases h
    exact htr u v
  | cons dep deps ih =>
    intro adj rev adj' rev' h hka hkr hw htr u v
    simp only [processDepList] at h
    split at h
    · cases h
    · split at h
      · cases h
      · rename_i hnone hself
        have hsrc : dep.source_workload_id ∈ dictKeys d := source_mem_of_not_isNone hnone
        refine ih _ _ _ _ h (by rw [dictKeys_dictAppend]; exact hka)
          (by rw [dictKeys_dictAppend]; exact hkr) hw ?_ u v
        intro u' v'
        rw [adjGet_dictAppend, adjGet_dictAppend, hka, hkr]
        by_cases hu : w.id = u' <;> by_cases hv : dep.source_workload_id = v'
        · rw [if_pos ⟨hu, hw⟩, if_pos ⟨hv, hsrc⟩, List.count_append,
            List.count_append, htr u' v']
          congr 1
          rw [hv, hu]
          simp
        · rw [if_pos ⟨hu, hw⟩, if_neg (fun hand => hv hand.1), List.count_append,
            htr u' v']
          have h0 : List.count v' [dep.source_workload_id] = 0 :=
            List.count_eq_zero.mpr (by
              simp only [List.mem_singleton]
              exact fun he => hv he.symm)
          rw [h0, add_zero]
        · rw [if_neg (fun hand => hu hand.1), if_pos ⟨hv, hsrc⟩, List.count_append,
            htr u' v']
          have h0 : List.count u' [w.id] = 0 :=
            List.count_eq_zero.mpr (by
              simp only [List.mem_singleton]
              exact fun he => hu he.symm)
          rw [h0, add_zero]
        · rw [if_neg (fun hand => hu hand.1), if_neg (fun hand => hv hand.1), htr u' v']

theorem processDepList_ok_good (d : List (ℕ × Workload)) (w : Workload) :
    ∀ (deps : List WorkloadDependency) (st st' : List (ℕ × List ℕ) × List (ℕ × List ℕ)),
      processDepList d w deps st = .ok st' → ∀ dep ∈ deps, ¬ depBad d w dep := by
  intro deps
  induction deps with
  | nil => intro st st' _ dep hd; simp at hd
  | cons dep deps ih =>
    intro st st' h dep' hd'
    obtain ⟨adj, rev⟩ := st
    simp only [processDepList] at h
    split at h
    · cases h
    · split at h
      · cases h
      · rename_i hnone hself
        rcases List.mem_cons.mp hd' with rfl | hd''
        · rintro (hbad | hbad)
          · exact hnone (by simp [Option.isNone_iff_eq_none, hbad])
          · exact hself hbad
        · exact ih _ _ h dep' hd''

theorem buildLoop_error (d : List (ℕ × Workload)) :
    ∀ (values : List Workload) (st : List (ℕ × List ℕ) × List (ℕ × List ℕ)) (e),
      buildLoop d values st = .error e →
      e = .invalidDependency ∧ ∃ w ∈ values, ∃ dep ∈ w.dependencies, depBad d w dep := by
  intro values
  induction values with
  | nil => intro st e h; simp [buildLoop] at h
  | cons w rest ih =>
    intro st e h
    simp only [buildLoop] at h
    split at h
    · rename_i heq
      cases h
      obtain ⟨he, dep, hdep, hbad⟩ := processDepList_error d w _ _ _ heq
      exact ⟨he, w, List.mem_cons_self _ _, dep, hdep, hbad⟩
    · obtain ⟨he, w', hw', rest'⟩ := ih _ _ h
      exact ⟨he, w', List.mem_cons_of_mem _ hw', rest'⟩

theorem buildLoop_ok_good (d : List (ℕ × Workload)) :
    ∀ (values : List Workload) (st st' : List (ℕ × List ℕ) × List (ℕ × List ℕ)),
      buildLoop d values st = .ok st' →
      ∀ w ∈ values, ∀ dep ∈ w.dependencies, ¬ depBad d w dep := by
  intro values
  induction values with
  | nil => intro st st' _ w hw; simp at hw
  | cons w rest ih =>
    intro st st' h w' hw'
    simp only [buildLoop] at h
    split at h
    · cases h
    · rename_i st1 heq
      rcases List.mem_cons.mp hw' with rfl | hw''
      · exact processDepList_ok_good d w' _ _ _ heq
      · exact ih _ _ h w' hw''

theorem buildLoop_ok (d : List (ℕ × Workload)) :
    ∀ (values : List Workload) (st : List (ℕ × List ℕ) × List (ℕ × List ℕ)),
      (∀ w ∈ values, ∀ dep ∈ w.dependencies, ¬ depBad d w dep) →
      ∃ st', buildLoop d values st = .ok st' := by
  intro values
  induction values with
  | nil => intro st _; exact ⟨st, rfl⟩
  | cons w rest ih =>
    intro st hgood
    obtain ⟨st1, hst1⟩ := processDepList_ok d w w.dependencies st
      (hgood w (List.mem_cons_self _ _))
    obtain ⟨st', hst'⟩ := ih st1
      (fun w' hw' => hgood w' (List.mem_cons_of_mem _ hw'))
    exact ⟨st', by simp only [buildLoop, hst1]; exact hst'⟩

theorem buildLoop_keys (d : List (ℕ × Workload)) :
    ∀ (values : List Workload) (adj rev adj' rev' : List (ℕ × List ℕ)),
      buildLoop d values (adj, rev) = .ok (adj', rev') →
      dictKeys adj' = dictKeys adj ∧ dictKeys rev' = dictKeys rev := by
  intro values
  induction values with
  | nil =>
    intro adj rev adj' rev' h
    simp only [buildLoop] at h
    cases h
    exact ⟨rfl, rfl⟩
  | cons w rest ih =>
    intro adj rev adj' rev' h
    simp only [buildLoop] at h
    split at h
    · cases h
    · rename_i st1 heq
      obtain ⟨adj1, rev1⟩ := st1
      obtain ⟨h1, h2⟩ := ih _ _ _ _ h
      obtain ⟨h3, h4⟩ := processDepList_keys d w _ _ _ _ _ heq
      exact ⟨h1.trans h3, h2.trans h4⟩

theorem buildLoop_adj_mem (d : List (ℕ × Workload)) :
    ∀ (values : List Workload) (adj rev adj' rev' : List (ℕ × List ℕ)),
      buildLoop d values (adj, rev) = .ok (adj', rev') →
      dictKeys adj = dictKeys d → (∀ w ∈ values, w.id ∈ dictKeys d) →
      ∀ u v, (v ∈ adjGet adj' u ↔
        v ∈ adjGet adj u ∨
          ∃ w ∈ values, w.id = u ∧ ∃ dep ∈ w.dependencies, dep.source_workload_id = v) := by
  intro values
  induction values with
  | nil =>
    intro adj rev adj' rev' h _ _ u v
    simp only [buildLoop] at h
    cases h
    simp
  | cons w rest ih =>
    intro adj rev adj' rev' h hk hvals u v
    simp only [buildLoop] at h
    split at h
    · cases h
    · rename_i st1 heq
      obtain ⟨adj1, rev1⟩ := st1
      have hwid : w.id ∈ dictKeys d := hvals w (List.mem_cons_self _ _)
      have hk1 : dictKeys adj1 = dictKeys d :=
        (processDepList_keys d w _ _ _ _ _ heq).1.trans hk
      rw [ih _ _ _ _ h hk1 (fun w' hw' => hvals w' (List.mem_cons_of_mem _ hw')) u v,
        processDepList_adj_mem d w _ _ _ _ _ heq hk hwid u v]
      constructor
      · rintro ((hm | ⟨hwu, hdep⟩) | ⟨w', hw', hprop⟩)
        · exact .inl hm
        · exact .inr ⟨w, List.mem_cons_self _ _, hwu, hdep⟩
        · exact .inr ⟨w', List.mem_cons_of_mem _ hw', hprop⟩
      · rintro (hm | ⟨w', hw', hprop⟩)
        · exact .inl (.inl hm)
        · rcases List.mem_cons.mp hw' with rfl | hw''
          · exact .inl (.inr hprop)
          · exact .inr ⟨w', hw'', hprop⟩

theorem buildLoop_rev_mem (d : List (ℕ × Workload)) :
    ∀ (values : List Workload) (adj rev adj' rev' : List (ℕ × List ℕ)),
      buildLoop d values (adj, rev) = .ok (adj', rev') →
      dictKeys rev = dictKeys d →
      ∀ u v, (v ∈ adjGet rev' u ↔
        v ∈ adjGet rev u ∨
          ∃ w ∈ values, w.id = v ∧ ∃ dep ∈ w.dependencies, dep.source_workload_id = u) := by
  intro values
  induction values with
  | nil =>
    intro adj rev adj' rev' h _ u v
    simp only [buildLoop] at h
    cases h
    simp
  | cons w rest ih =>
    intro adj rev adj' rev' h hk u v
    simp only [buildLoop] at h
    split at h
    · cases h
    · rename_i st1 heq
      obtain ⟨adj1, rev1⟩ := st1
      have hk1 : dictKeys rev1 = dictKeys d :=
        (processDepList_keys d w _ _ _ _ _ heq).2.trans hk
      rw [ih _ _ _ _ h hk1 u v,
        processDepList_rev_mem d w _ _ _ _ _ heq hk u v]
      constructor
      · rintro ((hm | ⟨hwv, hdep⟩) | ⟨w', hw', hprop⟩)
        · exact .inl hm
        · exact .inr ⟨w, List.mem_cons_self _ _, hwv, hdep⟩
        · exact .inr ⟨w', List.mem_cons_of_mem _ hw', hprop⟩
      · rintro (hm | ⟨w', hw', hprop⟩)
        · exact .inl (.inl hm)
        · rcases List.mem_cons.mp hw' with rfl | hw''
          · exact .inl (.inr hprop)
          · exact .inr ⟨w', hw'', hprop⟩

theorem buildLoop_transpose (d : List (ℕ × Workload)) :
    ∀ (values : List Workload) (adj rev adj' rev' : List (ℕ × List ℕ)),
      buildLoop d values (adj, rev) = .ok (adj', rev') →
      dictKeys adj = dictKeys d → dictKeys rev = dictKeys d →
      (∀ w ∈ values, w.id ∈ dictKeys d) →
      (∀ u v, (adjGet adj u).count v = (adjGet rev v).count u) →
      ∀ u v, (adjGet adj' u).count v = (adjGet rev' v).count u := by
  intro values
  induction values with
  | nil =>
    intro adj rev adj' rev' h _ _ _ htr u v
    simp only [buildLoop] at h
    cases h
    exact htr u v
  | cons w rest ih =>
    intro adj rev adj' rev' h hka hkr hvals htr u v
    simp only [buildLoop] at h
    split at h
    · cases h
    · rename_i st1 heq
      obtain ⟨adj1, rev1⟩ := st1
      obtain ⟨hk3, hk4⟩ := processDepList_keys d w _ _ _ _ _ heq
      exact ih _ _ _ _ h (hk3.trans hka) (hk4.trans hkr)
        (fun w' hw' => hvals w' (List.mem_cons_of_mem _ hw'))
        (processDepList_transpose d w _ _ _ _ _ heq hka hkr
          (hvals w (List.mem_cons_self _ _)) htr) u v

theorem dictValues_id_mem_keys (ws : List Workload) :
    ∀ w ∈ dictValues (workloadsDict ws), w.id ∈ dictKeys (workloadsDict ws) := by
  intro w hw
  simp only [dictValues, List.mem_map] at hw
  obtain ⟨p, hp, rfl⟩ := hw
  rw [workloadsDict_id ws p hp]
  exact List.mem_map_of_mem _ hp

theorem dictKeys_initMap (keys : List ℕ) :
    dictKeys (keys.map (fun k => (k, ([] : List ℕ)))) = keys := by
  simp [dictKeys, List.map_map]
  exact List.map_id keys

/-- Everything `_build_graph` guarantees on success. -/
theorem buildGraph_ok_parts {ws : List Workload} {g : DependencyGraph}
    (h : buildGraph ws = .ok g) :
    g.workloads = workloadsDict ws ∧
    dictKeys g.adjacency_list = dictKeys (workloadsDict ws) ∧
    dictKeys g.reverse_adjacency = dictKeys (workloadsDict ws) ∧
    (∀ u v, v ∈ adjGet g.adjacency_list u ↔ wsEdge ws u v) ∧
    (∀ u v, v ∈ adjGet g.reverse_adjacency u ↔ wsEdge ws v u) ∧
    (∀ u v, (adjGet g.adjacency_list u).count v
      = (adjGet g.reverse_adjacency v).count u) := by
  cases hres : buildLoop (workloadsDict ws) (dictValues (workloadsDict ws))
      ((dictKeys (workloadsDict ws)).map (fun k => (k, ([] : List ℕ))),
        (dictKeys (workloadsDict ws)).map (fun k => (k, ([] : List ℕ)))) with
  | error e =>
    rw [buildGraph, hres] at h
    cases h
  | ok st1 =>
    obtain ⟨adj1, rev1⟩ := st1
    rw [buildGraph, hres] at h
    cases h
    have hkinit : dictKeys ((dictKeys (workloadsDict ws)).map
        (fun k => (k, ([] : List ℕ)))) = dictKeys (workloadsDict ws) :=
      dictKeys_initMap _
    obtain ⟨hka, hkr⟩ := buildLoop_keys _ _ _ _ _ _ hres
    refine ⟨rfl, hka.trans hkinit, hkr.trans hkinit, ?_, ?_, ?_⟩
    · intro u v
      show v ∈ adjGet adj1 u ↔ wsEdge ws u v
      rw [buildLoop_adj_mem _ _ _ _ _ _ hres hkinit (dictValues_id_mem_keys ws) u v]
      simp [adjGet_init, wsEdge]
    · intro u v
      show v ∈ adjGet rev1 u ↔ wsEdge ws v u
      rw [buildLoop_rev_mem _ _ _ _ _ _ hres hkinit u v]
      simp [adjGet_init, wsEdge]
    · intro u v
      show (adjGet adj1 u).count v = (adjGet rev1 v).count u
      exact buildLoop_transpose _ _ _ _ _ _ hres hkinit hkinit
        (dictValues_id_mem_keys ws) (by simp [adjGet_init]) u v

/-- `_build_graph` raises only `InvalidDependencyError`, and exactly when
a retained workload has an unknown or self-referential prerequisite. -/
theorem buildGraph_error_iff (ws : List Workload) :
    (∀ e, buildGraph ws = .error e → e = .invalidDependency) ∧
    (buildGraph ws = .error .invalidDependency ↔ hasBadDep ws) := by
  cases hres : buildLoop (workloadsDict ws) (dictValues (workloadsDict ws))
      ((dictKeys (workloadsDict ws)).map (fun k => (k, ([] : List ℕ))),
        (dictKeys (workloadsDict ws)).map (fun k => (k, ([] : List ℕ)))) with
  | error e =>
    obtain ⟨he, w, hw, dep, hdep, hbad⟩ := buildLoop_error _ _ _ _ hres
    subst he
    constructor
    · intro e' h'
      rw [buildGraph, hres] at h'
      cases h'
      rfl
    · constructor
      · intro _
        exact ⟨w, hw, dep, hdep, hbad⟩
      · intro _
        rw [buildGraph, hres]
  | ok st1 =>
    obtain ⟨adj1, rev1⟩ := st1
    constructor
    · intro e' h'
      rw [buildGraph, hres] at h'
      cases h'
    · constructor
      · intro h'
        rw [buildGraph, hres] at h'
        cases h'
      · intro hbad
        obtain ⟨w, hw, dep, hdep, hb⟩ := hbad
        exact absurd hb (buildLoop_ok_good _ _ _ _ hres w hw dep hdep)

/-! ### DFS cycle detection: specification -/

/-- Edge relation of an adjacency dict: `u` lists `v` as a prerequisite. -/
def gEdge (adj : List (ℕ × List ℕ)) (u v : ℕ) : Prop := v ∈ adjGet adj u

/-- Reachability along `gEdge`. -/
def gReach (adj : List (ℕ × List ℕ)) : ℕ → ℕ → Prop :=
  Relation.ReflTransGen (gEdge adj)

/-- `b` lies on a directed cycle. -/
def onCycle (adj : List (ℕ × List ℕ)) (b : ℕ) : Prop :=
  ∃ p, gEdge adj b p ∧ gReach adj p b

/-- The adjacency structure contains a directed cycle. -/
def hasCycleAdj (adj : List (ℕ × List ℕ)) : Prop := ∃ b, onCycle adj b

theorem onCycle_next {adj : List (ℕ × List ℕ)} {n p : ℕ}
    (he : gEdge adj n p) (hr : gReach adj p n) : onCycle adj p := by
  rcases Relation.ReflTransGen.cases_head hr with heq | ⟨q, hq, hr'⟩
  · subst heq
    exact ⟨p, he, Relation.ReflTransGen.refl⟩
  · exact ⟨q, hq, hr'.tail he⟩

/-- The invariant of the DFS: every visited node off the recursion stack
is "black": it is not on any cycle and all its prerequisites are black. -/
def blackInv (adj : List (ℕ × List ℕ)) (visited stack : List ℕ) : Prop :=
  ∀ b ∈ visited, b ∉ stack →
    ¬ onCycle adj b ∧ ∀ p ∈ adjGet adj b, p ∈ visited ∧ p ∉ stack

theorem blackInv_push {adj : List (ℕ × List ℕ)} {vis stack : List ℕ} {n : ℕ}
    (hb : blackInv adj vis stack) (hn : n ∉ vis) :
    blackInv adj (n :: vis) (n :: stack) := by
  intro b hbv hbs
  have hbn : b ≠ n := fun he => hbs (he ▸ List.mem_cons_self _ _)
  have hbv' : b ∈ vis := by
    rcases List.mem_cons.mp hbv with rfl | h
    · exact absurd rfl hbn
    · exact h
  have hbs' : b ∉ stack := fun h => hbs (List.mem_cons_of_mem _ h)
  obtain ⟨hc, hp⟩ := hb b hbv' hbs'
  refine ⟨hc, fun p hpe => ?_⟩
  obtain ⟨hp1, hp2⟩ := hp p hpe
  have hpn : p ≠ n := fun he => hn (he ▸ hp1)
  exact ⟨List.mem_cons_of_mem _ hp1,
    fun h => (List.mem_cons.mp h).elim hpn hp2⟩

/-- The number of keys not yet visited; the DFS fuel bound. -/
def unvisitedCount (adj : List (ℕ × List ℕ)) (visited : List ℕ) : ℕ :=
  ((dictKeys adj).filter (fun x => decide (x ∉ visited))).length

theorem filter_length_mono {l : List ℕ} {p q : ℕ → Bool}
    (h : ∀ x, p x = true → q x = true) :
    (l.filter p).length ≤ (l.filter q).length := by
  induction l with
  | nil => simp
  | cons a t ih =>
    simp only [List.filter_cons]
    by_cases hp : p a = true
    · rw [if_pos hp, if_pos (h a hp)]
      simpa using ih
    · rw [if_neg hp]
      split
      · exact le_trans ih (by simp)
      · exact ih

theorem filter_length_lt {l : List ℕ} {p q : ℕ → Bool}
    (h : ∀ x, p x = true → q x = true) {a : ℕ} (ha : a ∈ l)
    (hpa : p a = false) (hqa : q a = true) :
    (l.filter p).length < (l.filter q).length := by
  induction l with
  | nil => simp at ha
  | cons b t ih =>
    simp only [List.filter_cons]
    rcases List.mem_cons.mp ha with rfl | ha'
    · rw [if_neg (by simp [hpa]), if_pos hqa]
      simpa using Nat.lt_succ_of_le (filter_length_mono h)
    · by_cases hp : p b = true
      · rw [if_pos hp, if_pos (h b hp)]
        simpa using ih ha'
      · rw [if_neg hp]
        split
        · exact lt_of_lt_of_le (ih ha') (by simp)
        · exact ih ha'

theorem unvisitedCount_mono {adj : List (ℕ × List ℕ)} {vis vis' : List ℕ}
    (h : vis ⊆ vis') : unvisitedCount adj vis' ≤ unvisitedCount adj vis := by
  refine filter_length_mono ?_
  intro x hx
  simp only [decide_eq_true_eq] at hx ⊢
  exact fun hm => hx (h hm)

theorem unvisitedCount_lt {adj : List (ℕ × List ℕ)} {vis : List ℕ} {n : ℕ}
    (hk : n ∈ dictKeys adj) (hn : n ∉ vis) :
    unvisitedCount adj (n :: vis) < unvisitedCount adj vis := by
  refine filter_length_lt ?_ hk ?_ ?_
  · intro x hx
    simp only [decide_eq_true_eq] at hx ⊢
    exact fun hm => hx (List.mem_cons_of_mem _ hm)
  · simp
  · simp [hn]

theorem unvisitedCount_pos {adj : List (ℕ × List ℕ)} {vis : List ℕ} {n : ℕ}
    (hk : n ∈ dictKeys adj) (hn : n ∉ vis) : 0 < unvisitedCount adj vis := by
  have : n ∈ (dictKeys adj).filter (fun x => decide (x ∉ vis)) :=
    List.mem_filter.mpr ⟨hk, by simp [hn]⟩
  exact List.length_pos.mpr (List.ne_nil_of_mem this)

theorem unvisitedCount_le_length (adj : List (ℕ × List ℕ)) (vis : List ℕ) :
    unvisitedCount adj vis ≤ (dictKeys adj).length :=
  List.length_filter_le _ _

/-- Postcondition of `has_cycle(n)` run with visited set `vis` and
recursion stack `stack` (excluding `n`). -/
def dfsPost (adj : List (ℕ × List ℕ)) (stack : List ℕ) (n : ℕ) (vis : List ℕ)
    (out : Bool × List ℕ) : Prop :=
  vis ⊆ out.2 ∧ n ∈ out.2 ∧
  (out.1 = true → hasCycleAdj adj) ∧
  (out.1 = false → blackInv adj out.2 stack)

/-- Postcondition of the loop over `n`'s prerequisites. -/
def childPost (adj : List (ℕ × List ℕ)) (stackp : List ℕ) (children : List ℕ)
    (vis : List ℕ) (out : Bool × List ℕ) : Prop :=
  vis ⊆ out.2 ∧
  (out.1 = true → hasCycleAdj adj) ∧
  (out.1 = false →
    blackInv adj out.2 stackp ∧ ∀ c ∈ children, c ∈ out.2 ∧ c ∉ stackp)

theorem childLoop_spec (adj : List (ℕ × List ℕ)) (stackp : List ℕ) (n : ℕ)
    (vis0 : List ℕ)
    (hreachn : ∀ s ∈ stackp, gReach adj s n)
    (recurse : ℕ → List ℕ → Bool × List ℕ)
    (hrec : ∀ p vis, vis0 ⊆ vis → gEdge adj n p → p ∉ vis → stackp ⊆ vis →
      blackInv adj vis stackp → dfsPost adj stackp p vis (recurse p vis)) :
    ∀ (children : List ℕ) (vis : List ℕ), vis0 ⊆ vis →
      (∀ c ∈ children, gEdge adj n c) →
      stackp ⊆ vis → blackInv adj vis stackp →
      childPost adj stackp children vis (childLoop recurse stackp children vis) := by
  intro children
  induction children with
  | nil =>
    intro vis _ _ _ hbl
    refine ⟨List.Subset.refl _, by simp [childLoop], ?_⟩
    intro _
    exact ⟨hbl, by simp⟩
  | cons p rest ih =>
    intro vis h0 hch hsub hbl
    have hpe : gEdge adj n p := hch p (List.mem_cons_self _ _)
    by_cases hp : p ∈ vis
    · by_cases hps : p ∈ stackp
      · have hout : childLoop recurse stackp (p :: rest) vis = (true, vis) := by
          simp [childLoop, hp, hps]
        rw [hout]
        refine ⟨List.Subset.refl _, fun _ => ?_, by simp⟩
        exact ⟨n, p, hpe, hreachn p hps⟩
      · have hout : childLoop recurse stackp (p :: rest) vis
            = childLoop recurse stackp rest vis := by
          simp [childLoop, hp, hps]
        rw [hout]
        obtain ⟨hs, ht, hf⟩ := ih vis h0
          (fun c hc => hch c (List.mem_cons_of_mem _ hc)) hsub hbl
        refine ⟨hs, ht, fun hfalse => ?_⟩
        obtain ⟨hbl', hcs⟩ := hf hfalse
        refine ⟨hbl', fun c hc => ?_⟩
        rcases List.mem_cons.mp hc with rfl | hc'
        · exact ⟨hs hp, hps⟩
        · exact hcs c hc'
    · have hpost := hrec p vis h0 hpe hp hsub hbl
      rcases hre : recurse p vis with ⟨b, v⟩
      rw [hre] at hpost
      obtain ⟨hsv, hpv, htr, hfl⟩ := hpost
      cases b with
      | true =>
        have hout : childLoop recurse stackp (p :: rest) vis = (true, v) := by
          simp [childLoop, hp, hre]
        rw [hout]
        exact ⟨hsv, fun _ => htr rfl, by simp⟩
      | false =>
        have hout : childLoop recurse stackp (p :: rest) vis
            = childLoop recurse stackp rest v := by
          simp [childLoop, hp, hre]
        rw [hout]
        have hbl' : blackInv adj v stackp := hfl rfl
        have hps : p ∉ stackp := fun h => hp (hsub h)
        obtain ⟨hs, ht, hf⟩ := ih v (List.Subset.trans h0 hsv)
          (fun c hc => hch c (List.mem_cons_of_mem _ hc))
          (List.Subset.trans hsub hsv) hbl'
        refine ⟨List.Subset.trans hsv hs, ht, fun hfalse => ?_⟩
        obtain ⟨hbl'', hcs⟩ := hf hfalse
        refine ⟨hbl'', fun c hc => ?_⟩
        rcases List.mem_cons.mp hc with rfl | hc'
        · exact ⟨hs hpv, hps⟩
        · exact hcs c hc'

theorem dfsNode_spec (adj : List (ℕ × List ℕ))
    (hclosed : ∀ u v, v ∈ adjGet adj u → v ∈ dictKeys adj) :
    ∀ (fuel : ℕ) (n : ℕ) (vis stack : List ℕ),
      n ∉ vis → n ∈ dictKeys adj → stack ⊆ vis → blackInv adj vis stack →
      (∀ s ∈ stack, gReach adj s n) →
      unvisitedCount adj vis ≤ fuel →
      dfsPost adj stack n vis (dfsNode adj fuel n vis stack) := by
  intro fuel
  induction fuel with
  | zero =>
    intro n vis stack hn hk _ _ _ hfuel
    exact absurd (lt_of_lt_of_le (unvisitedCount_pos hk hn) hfuel) (by simp)
  | succ fuel ih =>
    intro n vis stack hn hk hsub hbl hreach hfuel
    have hnstack : n ∉ stack := fun h => hn (hsub h)
    have hreachn : ∀ s ∈ n :: stack, gReach adj s n := by
      intro s hs
      rcases List.mem_cons.mp hs with rfl | hs'
      · exact Relation.ReflTransGen.refl
      · exact hreach s hs'
    have hrec : ∀ p vis', (n :: vis) ⊆ vis' → gEdge adj n p → p ∉ vis' →
        (n :: stack) ⊆ vis' → blackInv adj vis' (n :: stack) →
        dfsPost adj (n :: stack) p vis' (dfsNode adj fuel p vis' (n :: stack)) := by
      intro p vis' h0 hpe hp hsub' hbl'
      refine ih p vis' (n :: stack) hp (hclosed n p hpe) hsub' hbl' ?_ ?_
      · intro s hs
        exact (hreachn s hs).tail hpe
      · have h1 : unvisitedCount adj vis' ≤ unvisitedCount adj (n :: vis) :=
          unvisitedCount_mono h0
        have h2 : unvisitedCount adj (n :: vis) < unvisitedCount adj vis :=
          unvisitedCount_lt hk hn
        omega
    have hcp := childLoop_spec adj (n :: stack) n (n :: vis) hreachn
      (fun p vis' => dfsNode adj fuel p vis' (n :: stack)) hrec
      (adjGet adj n) (n :: vis) (List.Subset.refl _) (fun c hc => hc)
      (fun s hs => by
        rcases List.mem_cons.mp hs with rfl | hs'
        · exact List.mem_cons_self _ _
        · exact List.mem_cons_of_mem _ (hsub hs'))
      (blackInv_push hbl hn)
    have hout : dfsNode adj (fuel + 1) n vis stack
        = childLoop (fun p vis' => dfsNode adj fuel p vis' (n :: stack))
            (n :: stack) (adjGet adj n) (n :: vis) := rfl
    rw [hout]
    obtain ⟨hs, ht, hf⟩ := hcp
    refine ⟨List.Subset.trans (List.subset_cons_self _ _) hs, hs (List.mem_cons_self _ _),
      ht, fun hfalse => ?_⟩
    obtain ⟨hbl', hcs⟩ := hf hfalse
    intro b hbv hbs
    by_cases hbn : b = n
    · subst hbn
      constructor
      · rintro ⟨p, hpe, hpr⟩
        obtain ⟨hp1, hp2⟩ := hcs p hpe
        exact (hbl' p hp1 hp2).1 (onCycle_next hpe hpr)
      · intro p hpe
        obtain ⟨hp1, hp2⟩ := hcs p hpe
        exact ⟨hp1, fun h => hp2 (List.mem_cons_of_mem _ h)⟩
    · have hbs' : b ∉ n :: stack :=
        fun h => (List.mem_cons.mp h).elim hbn hbs
      obtain ⟨hc, hp⟩ := hbl' b hbv hbs'
      refine ⟨hc, fun p hpe => ?_⟩
      obtain ⟨hp1, hp2⟩ := hp p hpe
      exact ⟨hp1, fun h => hp2 (List.mem_cons_of_mem _ h)⟩

theorem validateLoop_spec (adj : List (ℕ × List ℕ))
    (hclosed : ∀ u v, v ∈ adjGet adj u → v ∈ dictKeys adj)
    (fuel : ℕ) (hfuel : (dictKeys adj).length ≤ fuel) :
    ∀ (ids : List ℕ) (vis : List ℕ), (∀ i ∈ ids, i ∈ dictKeys adj) →
      blackInv adj vis [] →
      (validateLoop adj fuel ids vis = true → hasCycleAdj adj) ∧
      (validateLoop adj fuel ids vis = false →
        ∃ v', vis ⊆ v' ∧ (∀ i ∈ ids, i ∈ v') ∧ blackInv adj v' []) := by
  intro ids
  induction ids with
  | nil =>
    intro vis _ hbl
    refine ⟨by simp [validateLoop], fun _ => ?_⟩
    exact ⟨vis, List.Subset.refl _, by simp, hbl⟩
  | cons wid rest ih =>
    intro vis hids hbl
    have hwid : wid ∈ dictKeys adj := hids wid (List.mem_cons_self _ _)
    by_cases hv : wid ∈ vis
    · have hout : validateLoop adj fuel (wid :: rest) vis
          = validateLoop adj fuel rest vis := by
        simp [validateLoop, hv]
      rw [hout]
      obtain ⟨ht, hf⟩ := ih vis (fun i hi => hids i (List.mem_cons_of_mem _ hi)) hbl
      refine ⟨ht, fun hfalse => ?_⟩
      obtain ⟨v', hs, hrest, hbl'⟩ := hf hfalse
      refine ⟨v', hs, fun i hi => ?_, hbl'⟩
      rcases List.mem_cons.mp hi with rfl | hi'
      · exact hs hv
      · exact hrest i hi'
    · have hpost := dfsNode_spec adj hclosed fuel wid vis [] hv hwid
        (by simp) hbl (by simp)
        (le_trans (unvisitedCount_le_length adj vis) hfuel)
      rcases hre : dfsNode adj fuel wid vis [] with ⟨b, v⟩
      rw [hre] at hpost
      obtain ⟨hsv, hnv, htr, hfl⟩ := hpost
      cases b with
      | true =>
        have hout : validateLoop adj fuel (wid :: rest) vis = true := by
          simp [validateLoop, hv, hre]
        rw [hout]
        exact ⟨fun _ => htr rfl, by simp⟩
      | false =>
        have hout : validateLoop adj fuel (wid :: rest) vis
            = validateLoop adj fuel rest v := by
          simp [validateLoop, hv, hre]
        rw [hout]
        obtain ⟨ht, hf⟩ := ih v (fun i hi => hids i (List.mem_cons_of_mem _ hi))
          (hfl rfl)
        refine ⟨ht, fun hfalse => ?_⟩
        obtain ⟨v', hs, hrest, hbl'⟩ := hf hfalse
        refine ⟨v', List.Subset.trans hsv hs, fun i hi => ?_, hbl'⟩
        rcases List.mem_cons.mp hi with rfl | hi'
        · exact hs hnv
        · exact hrest i hi'

/-- On a graph coming out of `_build_graph`, every adjacency target is a
workload id (the build validated every prerequisite reference). -/
theorem buildGraph_adj_closed {ws : List Workload} {g : DependencyGraph}
    (h : buildGraph ws = .ok g) :
    ∀ u v, v ∈ adjGet g.adjacency_list u → v ∈ dictKeys g.adjacency_list := by
  obtain ⟨hwl, hka, hkr, hadj, hrev, htr⟩ := buildGraph_ok_parts h
  have hgood : ∀ w ∈ dictValues (workloadsDict ws),
      ∀ dep ∈ w.dependencies, ¬ depBad (workloadsDict ws) w dep := by
    cases hres : buildLoop (workloadsDict ws) (dictValues (workloadsDict ws))
        ((dictKeys (workloadsDict ws)).map (fun k => (k, ([] : List ℕ))),
          (dictKeys (workloadsDict ws)).map (fun k => (k, ([] : List ℕ)))) with
    | error e =>
      rw [buildGraph, hres] at h
      cases h
    | ok st1 => exact buildLoop_ok_good _ _ _ _ hres
  intro u v hm
  obtain ⟨w, hw, _, dep, hdep, rfl⟩ := (hadj u v).mp hm
  have hb := hgood w hw dep hdep
  rw [hka]
  have hne : ¬ dictGet? dep.source_workload_id (workloadsDict ws) = none :=
    fun he => hb (.inl he)
  exact not_not.mp (fun hmk => hne ((dictGet?_eq_none_iff _ _).mpr hmk))

/-- Cycle-ness at the adjacency level coincides with cycle-ness of the
input fleet's dependency edges, for a successfully built graph. -/
theorem hasCycleAdj_iff_wsHasCycle {ws : List Workload} {g : DependencyGraph}
    (h : buildGraph ws = .ok g) :
    hasCycleAdj g.adjacency_list ↔ wsHasCycle ws := by
  obtain ⟨_, _, _, hadj, _, _⟩ := buildGraph_ok_parts h
  constructor
  · rintro ⟨b, p, he, hr⟩
    exact ⟨b, p, (hadj b p).mp he,
      Relation.ReflTransGen.mono (fun x y hx => (hadj x y).mp hx) hr⟩
  · rintro ⟨u, v, he, hr⟩
    exact ⟨u, v, (hadj u v).mpr he,
      Relation.ReflTransGen.mono (fun x y hx => (hadj x y).mpr hx) hr⟩

/-- `_validate_graph` raises `CircularDependencyError` exactly when the
built adjacency structure has a directed cycle. -/
theorem validateGraph_iff {ws : List Workload} {g : DependencyGraph}
    (h : buildGraph ws = .ok g) :
    (validateGraph g = .error .circularDependency ↔ hasCycleAdj g.adjacency_list) ∧
    (validateGraph g = .ok () ↔ ¬ hasCycleAdj g.adjacency_list) := by
  obtain ⟨hwl, hka, hkr, hadj, hrev, htr⟩ := buildGraph_ok_parts h
  have hclosed := buildGraph_adj_closed h
  have hids : ∀ i ∈ dictKeys g.workloads, i ∈ dictKeys g.adjacency_list := by
    intro i hi
    rw [hka, ← hwl]
    exact hi
  have hlen : (dictKeys g.adjacency_list).length ≤ g.workloads.length + 1 := by
    rw [hka, ← hwl]
    have : (dictKeys g.workloads).length = g.workloads.length := by
      simp [dictKeys]
    omega
  obtain ⟨ht, hf⟩ := validateLoop_spec g.adjacency_list hclosed
    (g.workloads.length + 1) hlen (dictKeys g.workloads) [] hids
    (by intro b hb; simp at hb)
  have key : validateLoop g.adjacency_list (g.workloads.length + 1)
      (dictKeys g.workloads) [] = true ↔ hasCycleAdj g.adjacency_list := by
    constructor
    · exact ht
    · intro hcyc
      by_contra hfalse
      have hfalse' : validateLoop g.adjacency_list (g.workloads.length + 1)
          (dictKeys g.workloads) [] = false := by
        cases hb : validateLoop g.adjacency_list (g.workloads.length + 1)
            (dictKeys g.workloads) [] with
        | true => exact absurd hb hfalse
        | false => rfl
      obtain ⟨v', _, hall, hbl⟩ := hf hfalse'
      obtain ⟨b, p, he, hr⟩ := hcyc
      have hbk : b ∈ dictKeys g.adjacency_list :=
        adjGet_ne_nil_mem (List.ne_nil_of_mem he)
      have hbv : b ∈ v' := by
        refine hall b ?_
        rw [hka] at hbk
        rw [hwl]
        exact hbk
      exact (hbl b hbv (by simp)).1 ⟨p, he, hr⟩
  constructor
  · rw [validateGraph]
    split
    · rename_i hb
      exact ⟨fun _ => key.mp hb, fun _ => rfl⟩
    · rename_i hb
      constructor
      · intro hc; cases hc
      · intro hcyc
        exact absurd (key.mpr hcyc) hb
  · rw [validateGraph]
    split
    · rename_i hb
      constructor
      · intro hc; cases hc
      · intro hnc
        exact absurd (key.mp hb) hnc
    · rename_i hb
      exact ⟨fun _ hcyc => hb (key.mpr hcyc), fun _ => rfl⟩

/-! ### Claim C6: construction-time validation of the dependency graph -/

/-- C6 (amended): constructing a `DependencyGraph` raises
`InvalidDependencyError` exactly when some retained workload's dependency
references an id not in the input set or the owning workload itself; it
raises `CircularDependencyError` exactly when the dependency edges contain
a cycle and no such invalid reference exists (an invalid reference is
reported first, because graph building precedes cycle validation);
construction succeeds otherwise. -/
theorem dependencyGraphInit_characterization (ws : List Workload) :
    (dependencyGraphInit ws = .error .invalidDependency ↔ hasBadDep ws) ∧
    (dependencyGraphInit ws = .error .circularDependency ↔
      ¬ hasBadDep ws ∧ wsHasCycle ws) ∧
    ((∃ g, dependencyGraphInit ws = .ok g) ↔
      ¬ hasBadDep ws ∧ ¬ wsHasCycle ws) := by
  obtain ⟨honly, hinv⟩ := buildGraph_error_iff ws
  cases hb : buildGraph ws with
  | error e =>
    have he : e = .invalidDependency := honly e hb
    subst he
    have hbad : hasBadDep ws := hinv.mp hb
    have hinit : dependencyGraphInit ws = .error .invalidDependency := by
      rw [dependencyGraphInit, hb]
    refine ⟨⟨fun _ => hbad, fun _ => hinit⟩, ?_, ?_⟩
    · constructor
      · intro hc
        rw [hinit] at hc
        cases hc
      · rintro ⟨hnb, _⟩
        exact absurd hbad hnb
    · constructor
      · rintro ⟨g, hg⟩
        rw [hinit] at hg
        cases hg
      · rintro ⟨hnb, _⟩
        exact absurd hbad hnb
  | ok g =>
    have hnb : ¬ hasBadDep ws := by
      intro hbad
      rw [hinv.mpr hbad] at hb
      cases hb
    have hbridge := hasCycleAdj_iff_wsHasCycle hb
    obtain ⟨hcirc, hok⟩ := validateGraph_iff hb
    by_cases hcyc : wsHasCycle ws
    · have hval : validateGraph g = .error .circularDependency :=
        hcirc.mpr (hbridge.mpr hcyc)
      have hinit : dependencyGraphInit ws = .error .circularDependency := by
        rw [dependencyGraphInit, hb]
        show (match validateGraph g with
          | .error e => Except.error e
          | .ok _ => Except.ok g) = Except.error ArboricError.circularDependency
        rw [hval]
      refine ⟨?_, ⟨fun _ => ⟨hnb, hcyc⟩, fun _ => hinit⟩, ?_⟩
      · constructor
        · intro hc
          rw [hinit] at hc
          cases hc
        · intro hbad
          exact absurd hbad hnb
      · constructor
        · rintro ⟨g', hg⟩
          rw [hinit] at hg
          cases hg
        · rintro ⟨_, hnc⟩
          exact absurd hcyc hnc
    · have hval : validateGraph g = .ok () :=
        hok.mpr (fun hc => hcyc (hbridge.mp hc))
      have hinit : dependencyGraphInit ws = .ok g := by
        rw [dependencyGraphInit, hb]
        show (match validateGraph g with
          | .error e => Except.error e
          | .ok _ => Except.ok g) = Except.ok g
        rw [hval]
      refine ⟨?_, ?_, ⟨fun _ => ⟨hnb, hcyc⟩, fun _ => ⟨g, hinit⟩⟩⟩
      · constructor
        · intro hc
          rw [hinit] at hc
          cases hc
        · intro hbad
          exact absurd hbad hnb
      · constructor
        · intro hc
          rw [hinit] at hc
          cases hc
        · rintro ⟨_, hc⟩
          exact absurd hc hcyc

/-- A workload with the given id and completion-gated prerequisites, used
for concrete instances (2h duration, 12h deadline, as in the spec's chain
scenario). -/
def mkWorkload (i : ℕ) (prereqs : List ℕ) : Workload :=
  { id := i
    name := "w"
    duration_hours := 2
    power_draw_kw := 100
    deadline_hours := 12
    priority := .normal
    dependencies := prereqs.map (fun p =>
      { source_workload_id := p, depends_on_completion := true,
        min_delay_hours := 0 }) }

/-- A fleet containing both a 2-cycle (ids 2 and 3) and a dangling
reference (workload 1 depends on the unknown id 99). -/
def bothBadFleet : List Workload :=
  [mkWorkload 2 [3], mkWorkload 3 [2], mkWorkload 1 [99]]

theorem dependencyGraphInit_cycle_not_circular :
    wsHasCycle bothBadFleet ∧
    dependencyGraphInit bothBadFleet ≠ .error .circularDependency ∧
    dependencyGraphInit bothBadFleet = .error .invalidDependency :=
  ⟨⟨2, 3, by decide, Relation.ReflTransGen.single (by decide)⟩,
    by decide, by decide⟩

theorem dependencyGraphInit_characterization_witness :
    dependencyGraphInit [mkWorkload 1 [99]] = .error .invalidDependency :=
  (dependencyGraphInit_characterization [mkWorkload 1 [99]]).1.mpr (by decide)

/-! ### Kahn's algorithm: helper lemmas -/

theorem nodup_subset_length_le {l K : List ℕ} (hn : l.Nodup)
    (hs : ∀ x ∈ l, x ∈ K) : l.length ≤ K.length := by
  have h1 : l.toFinset.card = l.length := List.toFinset_card_of_nodup hn
  have h2 : l.toFinset ⊆ K.toFinset := by
    intro x hx
    rw [List.mem_toFinset] at hx ⊢
    exact hs x hx
  calc l.length = l.toFinset.card := h1.symm
    _ ≤ K.toFinset.card := Finset.card_le_card h2
    _ ≤ K.length := List.toFinset_card_le K

theorem indexOf_append_self {l : List ℕ} {a : ℕ} (h : a ∉ l) :
    (l ++ [a]).indexOf a = l.length := by
  rw [List.indexOf_append_of_not_mem h]
  simp

theorem filter_not_mem_nil (l : List ℕ) :
    l.filter (fun p => decide (p ∉ ([] : List ℕ))) = l := by
  induction l with
  | nil => rfl
  | cons x t ih => simp [List.filter_cons, ih]

theorem filter_append_order_length (order : List ℕ) (c : ℕ) (hc : c ∉ order) :
    ∀ l : List ℕ,
      ((l.filter (fun p => decide (p ∉ order ++ [c]))).length : ℤ)
        = ((l.filter (fun p => decide (p ∉ order))).length : ℤ) - l.count c := by
  intro l
  induction l with
  | nil => simp
  | cons x t ih =>
    by_cases hx : x = c
    · subst hx
      rw [List.filter_cons, List.filter_cons, if_neg (by simp), if_pos (by simp [hc])]
      have hcnt : List.count x (x :: t) = List.count x t + 1 := by
        simp [List.count_cons]
      rw [hcnt]
      simp only [List.length_cons]
      push_cast
      omega
    · have hmemiff : (x ∉ order ++ [c]) ↔ (x ∉ order) := by
        simp only [List.mem_append, List.mem_singleton]
        constructor
        · intro h hm; exact h (.inl hm)
        · intro h hm
          rcases hm with hm | hm
          · exact h hm
          · exact hx hm
      have hcnt : List.count c (x :: t) = List.count c t := by
        simp [List.count_cons, hx]
      rw [List.filter_cons, List.filter_cons, hcnt]
      by_cases ho : x ∈ order
      · rw [if_neg (by simp [ho]), if_neg (by simp [ho])]
        exact ih
      · rw [if_pos (by simp [hmemiff.mpr ho]), if_pos (by simp [ho])]
        simp only [List.length_cons]
        push_cast
        omega

theorem indegGet_of_mem : ∀ {d : List (ℕ × ℤ)}, (dictKeys d).Nodup →
    ∀ {p : ℕ × ℤ}, p ∈ d → indegGet p.1 d = p.2 := by
  intro d
  induction d with
  | nil => intro _ p hp; simp at hp
  | cons q rest ih =>
    intro hn p hp
    obtain ⟨k, x⟩ := q
    simp only [dictKeys_cons, List.nodup_cons] at hn
    rcases List.mem_cons.mp hp with rfl | hp'
    · simp [indegGet]
    · have hne : ¬ k = p.1 := by
        intro he
        exact hn.1 (he ▸ List.mem_map_of_mem Prod.fst hp')
      simp only [indegGet, if_neg hne]
      exact ih hn.2 hp'

theorem mem_of_indegGet : ∀ {d : List (ℕ × ℤ)} {v : ℕ}, v ∈ dictKeys d →
    (v, indegGet v d) ∈ d := by
  intro d
  induction d with
  | nil => intro v hv; simp at hv
  | cons q rest ih =>
    intro v hv
    obtain ⟨k, x⟩ := q
    by_cases hk : k = v
    · subst hk
      simp [indegGet]
    · simp only [dictKeys_cons, List.mem_cons] at hv
      rcases hv with rfl | hv'
      · exact absurd rfl hk
      · simp only [indegGet, if_neg hk]
        exact List.mem_cons_of_mem _ (ih hv')

theorem dictKeys_map_pair {α β : Type} (l : List (ℕ × α)) (f : ℕ × α → β) :
    dictKeys (l.map (fun p => (p.1, f p))) = dictKeys l := by
  simp [dictKeys, List.map_map]

/-! ### Kahn's algorithm: the cycle-construction lemma -/

theorem cycle_of_all_have_pred (adj : List (ℕ × List ℕ)) (R : List ℕ)
    (hne : R ≠ []) (hstep : ∀ v ∈ R, ∃ p, p ∈ adjGet adj v ∧ p ∈ R) :
    hasCycleAdj adj := by
  classical
  have hstep' : ∀ v : {x // x ∈ R}, ∃ p : {x // x ∈ R}, gEdge adj v.1 p.1 := by
    rintro ⟨v, hv⟩
    obtain ⟨p, hp1, hp2⟩ := hstep v hv
    exact ⟨⟨p, hp2⟩, hp1⟩
  choose F hF using hstep'
  obtain ⟨v0, hv0⟩ := List.exists_mem_of_ne_nil R hne
  set seq : ℕ → {x // x ∈ R} := fun n => F^[n] ⟨v0, hv0⟩ with hseq
  have hedge : ∀ n, gEdge adj (seq n).1 (seq (n + 1)).1 := by
    intro n
    have : seq (n + 1) = F (seq n) := by
      rw [hseq]
      exact Function.iterate_succ_apply' F n _
    rw [this]
    exact hF (seq n)
  have hreach : ∀ a b, a ≤ b → gReach adj (seq a).1 (seq b).1 := by
    intro a b hab
    induction b, hab using Nat.le_induction with
    | base => exact Relation.ReflTransGen.refl
    | succ b hb ih => exact ih.tail (hedge b)
  have hmaps : ∀ i ∈ Finset.range (R.length + 1), (seq i).1 ∈ R.toFinset := by
    intro i _
    rw [List.mem_toFinset]
    exact (seq i).2
  have hcard : R.toFinset.card < (Finset.range (R.length + 1)).card := by
    rw [Finset.card_range]
    exact Nat.lt_succ_of_le (List.toFinset_card_le R)
  obtain ⟨i, _, j, _, hij, heq⟩ :=
    Finset.exists_ne_map_eq_of_card_lt_of_maps_to hcard hmaps
  rcases Nat.lt_or_ge i j with hlt | hge
  · refine ⟨(seq i).1, (seq (i + 1)).1, hedge i, ?_⟩
    have := hreach (i + 1) j hlt
    rwa [← heq] at this
  · have hjlt : j < i := lt_of_le_of_ne hge (fun he => hij he.symm)
    refine ⟨(seq j).1, (seq (j + 1)).1, hedge j, ?_⟩
    have := hreach (j + 1) i hjlt
    rwa [heq] at this

/-- What the dependent-decrementing loop of `topological_sort` does:
in-degrees drop by the number of occurrences in the dependent list, and a
node is enqueued exactly when its in-degree is consumed to zero. -/
theorem processDependents_spec :
    ∀ (ds : List ℕ) (indeg : List (ℕ × ℤ)) (queue : List ℕ),
      (∀ v ∈ ds, v ∈ dictKeys indeg) →
      (∀ v, 0 ≤ indegGet v indeg) →
      (∀ v ∈ ds, (ds.count v : ℤ) ≤ indegGet v indeg) →
      dictKeys (processDependents ds indeg queue).1 = dictKeys indeg ∧
      (∀ v, indegGet v (processDependents ds indeg queue).1
        = indegGet v indeg - ds.count v) ∧
      ∃ newq, (processDependents ds indeg queue).2 = queue ++ newq ∧
        newq.Nodup ∧
        (∀ v, v ∈ newq ↔ v ∈ ds ∧ indegGet v indeg = ds.count v) := by
  intro ds
  induction ds with
  | nil =>
    intro indeg queue _ _ _
    refine ⟨rfl, by simp [processDependents], [], by simp [processDependents], by simp, by simp⟩
  | cons d rest ih =>
    intro indeg queue hkeys hnonneg hmargin
    have hdk : d ∈ dictKeys indeg := hkeys d (List.mem_cons_self _ _)
    have hval : indegGet d (indegDec d indeg) = indegGet d indeg - 1 := by
      rw [indegGet_indegDec, if_pos ⟨rfl, hdk⟩]
    have hvalo : ∀ v, ¬ d = v → indegGet v (indegDec d indeg) = indegGet v indeg := by
      intro v hv
      rw [indegGet_indegDec, if_neg (fun hand => hv hand.1)]
    have hkeys1 : dictKeys (indegDec d indeg) = dictKeys indeg := indegDec_keys d indeg
    have hmd : (List.count d (d :: rest) : ℤ) ≤ indegGet d indeg :=
      hmargin d (List.mem_cons_self _ _)
    have hcntd : List.count d (d :: rest) = List.count d rest + 1 := by
      simp [List.count_cons]
    have hcnto : ∀ v, ¬ d = v → List.count v (d :: rest) = List.count v rest := by
      intro v hv
      simp [List.count_cons, hv]
    have hkeys' : ∀ v ∈ rest, v ∈ dictKeys (indegDec d indeg) := by
      intro v hv
      rw [hkeys1]
      exact hkeys v (List.mem_cons_of_mem _ hv)
    by_cases hz : indegGet d (indegDec d indeg) = 0
    · have hone : indegGet d indeg = 1 := by omega
      have hdrest : d ∉ rest := by
        rw [← List.count_eq_zero]
        omega
      have heq : processDependents (d :: rest) indeg queue
          = processDependents rest (indegDec d indeg) (queue ++ [d]) := by
        simp only [processDependents]
        rw [if_pos hz]
      have hnonneg' : ∀ v, 0 ≤ indegGet v (indegDec d indeg) := by
        intro v
        by_cases hv : d = v
        · rw [← hv, hz]
        · rw [hvalo v hv]; exact hnonneg v
      have hmargin' : ∀ v ∈ rest, (rest.count v : ℤ) ≤ indegGet v (indegDec d indeg) := by
        intro v hv
        have hvd : ¬ d = v := fun h => hdrest (h ▸ hv)
        rw [hvalo v hvd, ← hcnto v hvd]
        exact hmargin v (List.mem_cons_of_mem _ hv)
      obtain ⟨hk, hvals, newq', hq, hnd, hiff⟩ := ih (indegDec d indeg) (queue ++ [d])
        hkeys' hnonneg' hmargin'
      rw [heq]
      refine ⟨hk.trans hkeys1, ?_, d :: newq', ?_, ?_, ?_⟩
      · intro v
        by_cases hv : d = v
        · subst hv
          rw [hvals d, hval, hcntd]
          push_cast
          omega
        · rw [hvals v, hvalo v hv, hcnto v hv]
      · rw [hq, List.append_assoc, List.singleton_append]
      · refine List.Nodup.cons ?_ hnd
        intro hm
        exact hdrest ((hiff d).mp hm).1
      · intro v
        by_cases hv : d = v
        · subst hv
          constructor
          · intro _
            refine ⟨List.mem_cons_self _ _, ?_⟩
            rw [hone, hcntd, List.count_eq_zero.mpr hdrest]
            norm_num
          · intro _
            exact List.mem_cons_self _ _
        · have hvd : v ≠ d := fun h => hv h.symm
          simp only [List.mem_cons]
          rw [hcnto v hv]
          constructor
          · rintro (h | h)
            · exact absurd h hvd
            · obtain ⟨h1, h2⟩ := (hiff v).mp h
              rw [hvalo v hv] at h2
              exact ⟨.inr h1, h2⟩
          · rintro ⟨(h | h1), h2⟩
            · exact absurd h hvd
            · refine .inr ((hiff v).mpr ⟨h1, ?_⟩)
              rw [hvalo v hv]
              exact h2
    · have hgeone : (1 : ℤ) ≤ List.count d (d :: rest) := by
        rw [hcntd]
        push_cast
        omega
      have heq : processDependents (d :: rest) indeg queue
          = processDependents rest (indegDec d indeg) queue := by
        simp only [processDependents]
        rw [if_neg hz]
      have hnonneg' : ∀ v, 0 ≤ indegGet v (indegDec d indeg) := by
        intro v
        by_cases hv : d = v
        · rw [← hv, hval]
          omega
        · rw [hvalo v hv]; exact hnonneg v
      have hmargin' : ∀ v ∈ rest, (rest.count v : ℤ) ≤ indegGet v (indegDec d indeg) := by
        intro v hv
        by_cases hvd : d = v
        · subst hvd
          rw [hval]
          have := hmargin d (List.mem_cons_self _ _)
          rw [hcntd] at this
          push_cast at this ⊢
          omega
        · rw [hvalo v hvd, ← hcnto v hvd]
          exact hmargin v (List.mem_cons_of_mem _ hv)
      obtain ⟨hk, hvals, newq', hq, hnd, hiff⟩ := ih (indegDec d indeg) queue
        hkeys' hnonneg' hmargin'
      rw [heq]
      refine ⟨hk.trans hkeys1, ?_, newq', hq, hnd, ?_⟩
      · intro v
        by_cases hv : d = v
        · subst hv
          rw [hvals d, hval, hcntd]
          push_cast
          omega
        · rw [hvals v, hvalo v hv, hcnto v hv]
      · intro v
        by_cases hv : d = v
        · subst hv
          rw [hiff d, hval, hcntd]
          constructor
          · rintro ⟨h1, h2⟩
            refine ⟨List.mem_cons_self _ _, ?_⟩
            push_cast at h2 ⊢
            omega
          · rintro ⟨_, h2⟩
            have hdin : d ∈ rest := by
              by_contra hnr
              rw [List.count_eq_zero.mpr hnr] at h2
              apply hz
              rw [hval]
              push_cast at h2
              omega
            refine ⟨hdin, ?_⟩
            push_cast at h2 ⊢
            omega
        · have hvd : v ≠ d := fun h => hv h.symm
          rw [(hiff v)]
          simp only [List.mem_cons]
          rw [hcnto v hv]
          constructor
          · rintro ⟨h1, h2⟩
            rw [hvalo v hv] at h2
            exact ⟨.inr h1, h2⟩
          · rintro ⟨(h | h1), h2⟩
            · exact absurd h hvd
            · refine ⟨h1, ?_⟩
              rw [hvalo v hv]
              exact h2

theorem nodup_append_singleton {l : List ℕ} {a : ℕ} (h : l.Nodup) (ha : a ∉ l) :
    (l ++ [a]).Nodup := by
  refine List.Nodup.append h (List.nodup_singleton a) ?_
  intro x hx hx'
  simp only [List.mem_singleton] at hx'
  exact ha (hx' ▸ hx)

/-- The loop invariant of Kahn's algorithm in `topological_sort`. -/
structure KahnInv (adj : List (ℕ × List ℕ)) (indeg : List (ℕ × ℤ))
    (queue order : List ℕ) : Prop where
  keys : dictKeys indeg = dictKeys adj
  ord_nodup : order.Nodup
  q_nodup : queue.Nodup
  disj : ∀ x ∈ order, x ∉ queue
  ord_sub : ∀ x ∈ order, x ∈ dictKeys adj
  q_sub : ∀ x ∈ queue, x ∈ dictKeys adj
  vals : ∀ v, indegGet v indeg
    = (((adjGet adj v).filter (fun p => decide (p ∉ order))).length : ℤ)
  q_zero : ∀ v ∈ queue, indegGet v indeg = 0
  stuck : ∀ v ∈ dictKeys adj, v ∉ order → v ∉ queue → indegGet v indeg ≠ 0
  ord_prop : ∀ u ∈ order, ∀ v ∈ adjGet adj u,
    v ∈ order ∧ order.indexOf v < order.indexOf u

theorem KahnInv.filter_nil_of_zero {adj : List (ℕ × List ℕ)}
    {indeg : List (ℕ × ℤ)} {queue order : List ℕ}
    (inv : KahnInv adj indeg queue order) {v : ℕ}
    (hz : indegGet v indeg = 0) :
    (adjGet adj v).filter (fun p => decide (p ∉ order)) = [] := by
  have := inv.vals v
  rw [hz] at this
  have hlen : ((adjGet adj v).filter (fun p => decide (p ∉ order))).length = 0 := by
    exact_mod_cast this.symm
  exact List.length_eq_zero.mp hlen

theorem KahnInv.ord_zero {adj : List (ℕ × List ℕ)} {indeg : List (ℕ × ℤ)}
    {queue order : List ℕ} (inv : KahnInv adj indeg queue order) :
    ∀ x ∈ order, indegGet x indeg = 0 := by
  intro x hx
  rw [inv.vals x]
  have hnil : (adjGet adj x).filter (fun p => decide (p ∉ order)) = [] := by
    rw [List.filter_eq_nil_iff]
    intro p hp
    simp only [decide_eq_true_eq, not_not]
    exact (inv.ord_prop x hx p hp).1
  rw [hnil]
  rfl

theorem kahnLoop_spec (adj rev : List (ℕ × List ℕ))
    (htrans : ∀ u v, (adjGet adj u).count v = (adjGet rev v).count u) :
    ∀ (fuel : ℕ) (indeg : List (ℕ × ℤ)) (queue order : List ℕ),
      KahnInv adj indeg queue order →
      (dictKeys adj).length + 1 ≤ fuel + order.length →
      (kahnLoop rev fuel indeg queue order).Nodup ∧
      (∀ x ∈ kahnLoop rev fuel indeg queue order, x ∈ dictKeys adj) ∧
      (∀ u ∈ kahnLoop rev fuel indeg queue order, ∀ v ∈ adjGet adj u,
        v ∈ kahnLoop rev fuel indeg queue order ∧
        (kahnLoop rev fuel indeg queue order).indexOf v
          < (kahnLoop rev fuel indeg queue order).indexOf u) ∧
      (∀ v ∈ dictKeys adj, v ∉ kahnLoop rev fuel indeg queue order →
        ∃ p ∈ adjGet adj v, p ∉ kahnLoop rev fuel indeg queue order) := by
  intro fuel
  induction fuel with
  | zero =>
    intro indeg queue order inv hfuel
    have hle := nodup_subset_length_le inv.ord_nodup inv.ord_sub
    exact absurd hfuel (by omega)
  | succ fuel ih =>
    intro indeg queue order inv hfuel
    match queue with
    | [] =>
      have heq : kahnLoop rev (fuel + 1) indeg [] order = order := rfl
      rw [heq]
      refine ⟨inv.ord_nodup, inv.ord_sub, inv.ord_prop, ?_⟩
      intro v hv hvo
      have hnz := inv.stuck v hv hvo (by simp)
      rw [inv.vals v] at hnz
      have : (adjGet adj v).filter (fun p => decide (p ∉ order)) ≠ [] := by
        intro hnil
        rw [hnil] at hnz
        exact hnz rfl
      obtain ⟨p, hp⟩ := List.exists_mem_of_ne_nil _ this
      have := List.mem_filter.mp hp
      exact ⟨p, this.1, by simpa using this.2⟩
    | current :: rest =>
      have hcur_mem : current ∈ dictKeys adj :=
        inv.q_sub current (List.mem_cons_self _ _)
      have hcur_zero : indegGet current indeg = 0 :=
        inv.q_zero current (List.mem_cons_self _ _)
      have hcur_notord : current ∉ order :=
        fun h => inv.disj current h (List.mem_cons_self _ _)
      have hcur_notrest : current ∉ rest := (List.nodup_cons.mp inv.q_nodup).1
      have hrest_nodup : rest.Nodup := (List.nodup_cons.mp inv.q_nodup).2
      have hprereqs : ∀ p ∈ adjGet adj current, p ∈ order := by
        intro p hp
        have hnil := inv.filter_nil_of_zero hcur_zero
        rw [List.filter_eq_nil_iff] at hnil
        have := hnil p hp
        simpa using this
      have hcount_eq : ∀ v, ((adjGet rev current).count v : ℤ)
          = ((adjGet adj v).count current : ℤ) := by
        intro v
        exact_mod_cast (htrans v current).symm
      have hds_keys : ∀ v ∈ adjGet rev current, v ∈ dictKeys indeg := by
        intro v hv
        have h1 : (adjGet rev current).count v ≠ 0 := by
          rw [Ne, List.count_eq_zero]
          exact fun h => h hv
        have h2 : (adjGet adj v).count current ≠ 0 := by
          rw [htrans v current]
          exact h1
        have h3 : current ∈ adjGet adj v := by
          by_contra hm
          exact h2 (List.count_eq_zero.mpr hm)
        rw [inv.keys]
        exact adjGet_ne_nil_mem (List.ne_nil_of_mem h3)
      have hnonneg : ∀ v, 0 ≤ indegGet v indeg := by
        intro v
        rw [inv.vals v]
        positivity
      have hcount_filter : ∀ v, (adjGet adj v).count current
          = ((adjGet adj v).filter (fun p => decide (p ∉ order))).count current := by
        intro v
        rw [List.count_filter (by simp [hcur_notord])]
      have hmargin : ∀ v ∈ adjGet rev current,
          (((adjGet rev current).count v : ℕ) : ℤ) ≤ indegGet v indeg := by
        intro v _
        rw [hcount_eq v, inv.vals v, hcount_filter v]
        exact_mod_cast List.count_le_length _ _
      obtain ⟨hk, hvals, newq, hq, hnqnd, hnqiff⟩ :=
        processDependents_spec (adjGet rev current) indeg rest hds_keys hnonneg hmargin
      have hcount_pos : ∀ v ∈ newq, (1 : ℤ) ≤ ((adjGet rev current).count v : ℤ) := by
        intro v hv
        obtain ⟨hv1, _⟩ := (hnqiff v).mp hv
        have : (adjGet rev current).count v ≠ 0 := by
          rw [Ne, List.count_eq_zero]
          exact fun h => h hv1
        omega
      have hnq_pos : ∀ v ∈ newq, (1 : ℤ) ≤ indegGet v indeg := by
        intro v hv
        obtain ⟨_, hv2⟩ := (hnqiff v).mp hv
        rw [hv2]
        exact hcount_pos v hv
      have hord_zero := inv.ord_zero
      have hnq_notord : ∀ v ∈ newq, v ∉ order := by
        intro v hv hvo
        have := hord_zero v hvo
        have := hnq_pos v hv
        omega
      have hnq_necur : ∀ v ∈ newq, v ≠ current := by
        intro v hv he
        have := hnq_pos v hv
        rw [he, hcur_zero] at this
        omega
      have hnq_notrest : ∀ v ∈ newq, v ∉ rest := by
        intro v hv hvr
        have := inv.q_zero v (List.mem_cons_of_mem _ hvr)
        have := hnq_pos v hv
        omega
      have hnq_K : ∀ v ∈ newq, v ∈ dictKeys adj := by
        intro v hv
        rw [← inv.keys]
        exact hds_keys v ((hnqiff v).mp hv).1
      have hrest_count : ∀ v ∈ rest, (adjGet rev current).count v = 0 := by
        intro v hv
        by_contra hc
        have hcm : current ∈ adjGet adj v := by
          by_contra hm
          exact hc (by
            have : (adjGet adj v).count current = 0 := List.count_eq_zero.mpr hm
            have h2 := htrans v current
            omega)
        have hnil := inv.filter_nil_of_zero
          (inv.q_zero v (List.mem_cons_of_mem _ hv))
        rw [List.filter_eq_nil_iff] at hnil
        have := hnil current hcm
        simp only [decide_eq_true_eq, not_not] at this
        exact hcur_notord this
      have inv' : KahnInv adj (processDependents (adjGet rev current) indeg rest).1
          (rest ++ newq) (order ++ [current]) := by
        refine ⟨hk.trans inv.keys, nodup_append_singleton inv.ord_nodup hcur_notord,
          ?_, ?_, ?_, ?_, ?_, ?_, ?_, ?_⟩
        · refine List.Nodup.append hrest_nodup hnqnd ?_
          intro x hx hx'
          exact hnq_notrest x hx' hx
        · intro x hx
          rcases List.mem_append.mp hx with hx | hx
          · intro hq'
            rcases List.mem_append.mp hq' with h | h
            · exact inv.disj x hx (List.mem_cons_of_mem _ h)
            · exact hnq_notord x h hx
          · simp only [List.mem_singleton] at hx
            subst hx
            intro hq'
            rcases List.mem_append.mp hq' with h | h
            · exact hcur_notrest h
            · exact hnq_necur x h rfl
        · intro x hx
          rcases List.mem_append.mp hx with hx | hx
          · exact inv.ord_sub x hx
          · simp only [List.mem_singleton] at hx
            exact hx ▸ hcur_mem
        · intro x hx
          rcases List.mem_append.mp hx with hx | hx
          · exact inv.q_sub x (List.mem_cons_of_mem _ hx)
          · exact hnq_K x hx
        · intro v
          rw [hvals v, inv.vals v, hcount_eq v,
            filter_append_order_length order current hcur_notord (adjGet adj v)]
        · intro v hv
          rcases List.mem_append.mp hv with hv | hv
          · rw [hvals v, hrest_count v hv]
            have := inv.q_zero v (List.mem_cons_of_mem _ hv)
            omega
          · rw [hvals v, ((hnqiff v).mp hv).2]
            omega
        · intro v hv hvo hvq
          have hvne : v ≠ current := by
            intro he
            exact hvo (he ▸ List.mem_append.mpr (.inr (List.mem_singleton_self _)))
          have hvo' : v ∉ order := fun h => hvo (List.mem_append.mpr (.inl h))
          have hvr : v ∉ rest := fun h => hvq (List.mem_append.mpr (.inl h))
          have hvn : v ∉ newq := fun h => hvq (List.mem_append.mpr (.inr h))
          rw [hvals v]
          intro hzero
          by_cases hcv : (adjGet rev current).count v = 0
          · rw [hcv] at hzero
            have hvz : indegGet v indeg = 0 := by omega
            exact inv.stuck v hv hvo' (by
              intro hm
              rcases List.mem_cons.mp hm with he | hm'
              · exact hvne he
              · exact hvr hm') hvz
          · have hvds : v ∈ adjGet rev current := by
              by_contra hm
              exact hcv (List.count_eq_zero.mpr hm)
            have : indegGet v indeg = ((adjGet rev current).count v : ℤ) := by
              have := hmargin v hvds
              have h1 : (1 : ℤ) ≤ ((adjGet rev current).count v : ℤ) := by omega
              omega
            exact hvn ((hnqiff v).mpr ⟨hvds, this⟩)
        · intro u hu v hv
          rcases List.mem_append.mp hu with hu | hu
          · obtain ⟨h1, h2⟩ := inv.ord_prop u hu v hv
            refine ⟨List.mem_append.mpr (.inl h1), ?_⟩
            rw [List.indexOf_append_of_mem h1, List.indexOf_append_of_mem hu]
            exact h2
          · simp only [List.mem_singleton] at hu
            subst hu
            have h1 := hprereqs v hv
            refine ⟨List.mem_append.mpr (.inl h1), ?_⟩
            rw [List.indexOf_append_of_mem h1, indexOf_append_self hcur_notord]
            exact List.indexOf_lt_length.mpr h1
      have heq : kahnLoop rev (fuel + 1) indeg (current :: rest) order
          = kahnLoop rev fuel (processDependents (adjGet rev current) indeg rest).1
              (processDependents (adjGet rev current) indeg rest).2
              (order ++ [current]) := rfl
      rw [heq, hq]
      refine ih _ _ _ inv' ?_
      simp only [List.length_append, List.length_singleton]
      omega

/-- Instantiation of the Kahn loop invariant at the entry of
`topological_sort`, for a successfully built graph. -/
theorem topological_sort_master {ws : List Workload} {g : DependencyGraph}
    (hb : buildGraph ws = .ok g) :
    ∃ ord, (topological_sort g
        = if ord.length = g.workloads.length then .ok ord
          else .error .circularDependency) ∧
      ord.Nodup ∧
      (∀ x ∈ ord, x ∈ dictKeys g.adjacency_list) ∧
      (∀ u ∈ ord, ∀ v ∈ adjGet g.adjacency_list u,
        v ∈ ord ∧ ord.indexOf v < ord.indexOf u) ∧
      (∀ v ∈ dictKeys g.adjacency_list, v ∉ ord →
        ∃ p ∈ adjGet g.adjacency_list v, p ∉ ord) := by
  obtain ⟨hwl, hka, hkr, hadj, hrev, htr⟩ := buildGraph_ok_parts hb
  have hKnodup : (dictKeys g.adjacency_list).Nodup := by
    rw [hka]
    exact workloadsDict_keys_nodup ws
  have htrans : ∀ u v, (adjGet g.adjacency_list u).count v
      = (adjGet g.reverse_adjacency v).count u := htr
  have hkeys0 : dictKeys (g.adjacency_list.map (fun p => (p.1, (p.2.length : ℤ))))
      = dictKeys g.adjacency_list := dictKeys_map_pair _ _
  have hind0 : ∀ v, indegGet v (g.adjacency_list.map (fun p => (p.1, (p.2.length : ℤ))))
      = ((adjGet g.adjacency_list v).length : ℤ) := indegGet_mapLen _
  have hkeys0nodup : (dictKeys (g.adjacency_list.map
      (fun p => (p.1, (p.2.length : ℤ))))).Nodup := by
    rw [hkeys0]
    exact hKnodup
  have hq0sub : List.Sublist
      (((g.adjacency_list.map (fun p => (p.1, (p.2.length : ℤ)))).filter
        (fun p => p.2 = 0)).map Prod.fst)
      (dictKeys (g.adjacency_list.map (fun p => (p.1, (p.2.length : ℤ))))) :=
    (List.filter_sublist _).map Prod.fst
  have inv0 : KahnInv g.adjacency_list
      (g.adjacency_list.map (fun p => (p.1, (p.2.length : ℤ))))
      (((g.adjacency_list.map (fun p => (p.1, (p.2.length : ℤ)))).filter
        (fun p => p.2 = 0)).map Prod.fst) [] := by
    refine ⟨hkeys0, List.nodup_nil, hq0sub.nodup (by rw [hkeys0]; exact hKnodup),
      by simp, by simp, ?_, ?_, ?_, ?_, by simp⟩
    · intro x hx
      rw [← hkeys0]
      exact hq0sub.subset hx
    · intro v
      rw [hind0 v, filter_not_mem_nil]
    · intro v hv
      simp only [List.mem_map] at hv
      obtain ⟨p, hp, rfl⟩ := hv
      have hp' := List.mem_filter.mp hp
      have := indegGet_of_mem hkeys0nodup hp'.1
      rw [this]
      simpa using hp'.2
    · intro v hv _ hvq
      intro hz
      have hvk : v ∈ dictKeys (g.adjacency_list.map (fun p => (p.1, (p.2.length : ℤ)))) := by
        rw [hkeys0]
        exact hv
      have hment := mem_of_indegGet hvk
      rw [hz] at hment
      refine hvq ?_
      simp only [List.mem_map]
      exact ⟨(v, 0), List.mem_filter.mpr ⟨hment, by simp⟩, rfl⟩
  have hfuel : (dictKeys g.adjacency_list).length + 1
      ≤ (g.workloads.length + 1) + ([] : List ℕ).length := by
    have h1 : (dictKeys g.adjacency_list).length = g.workloads.length := by
      rw [hka, hwl]
      simp [dictKeys]
    simp [h1]
  obtain ⟨hnd, hsub, hprop, hstuck⟩ := kahnLoop_spec g.adjacency_list
    g.reverse_adjacency htrans (g.workloads.length + 1) _ _ _ inv0 hfuel
  exact ⟨_, rfl, hnd, hsub, hprop, hstuck⟩

/-! ### Client-level facts about topological_sort -/

/-- On an acyclic built graph, Kahn's loop emits every node, so
`topological_sort` succeeds, and the output is a duplicate-free
enumeration of all ids respecting the prerequisite edges. -/
theorem topological_sort_acyclic_ok {ws : List Workload} {g : DependencyGraph}
    (hb : buildGraph ws = .ok g) (hnc : ¬ hasCycleAdj g.adjacency_list) :
    ∃ ord, topological_sort g = .ok ord ∧ ord.Nodup ∧
      (∀ x, x ∈ ord ↔ x ∈ dictKeys g.adjacency_list) ∧
      (∀ u ∈ ord, ∀ v ∈ adjGet g.adjacency_list u,
        ord.indexOf v < ord.indexOf u) := by
  obtain ⟨ord, hteq, hnd, hsub, hprop, hstuck⟩ := topological_sort_master hb
  have hclosed := buildGraph_adj_closed hb
  obtain ⟨hwl, hka, _, _, _, _⟩ := buildGraph_ok_parts hb
  have hall : ∀ x ∈ dictKeys g.adjacency_list, x ∈ ord := by
    by_contra hnall
    push_neg at hnall
    obtain ⟨x0, hx0k, hx0o⟩ := hnall
    refine hnc (cycle_of_all_have_pred g.adjacency_list
      ((dictKeys g.adjacency_list).filter (fun v => decide (v ∉ ord))) ?_ ?_)
    · intro hnil
      have hx0 : x0 ∈ (dictKeys g.adjacency_list).filter
          (fun v => decide (v ∉ ord)) :=
        List.mem_filter.mpr ⟨hx0k, by simpa using hx0o⟩
      rw [hnil] at hx0
      exact absurd hx0 (List.not_mem_nil _)
    · intro v hv
      have hv' := List.mem_filter.mp hv
      have hvo : v ∉ ord := by simpa using hv'.2
      obtain ⟨p, hp1, hp2⟩ := hstuck v hv'.1 hvo
      exact ⟨p, hp1,
        List.mem_filter.mpr ⟨hclosed v p hp1, by simpa using hp2⟩⟩
  have hKnd : (dictKeys g.adjacency_list).Nodup := by
    rw [hka]
    exact workloadsDict_keys_nodup ws
  have hKlen : (dictKeys g.adjacency_list).length = g.workloads.length := by
    rw [hka, hwl]
    simp [dictKeys]
  have hlen1 := nodup_subset_length_le hnd hsub
  have hlen2 := nodup_subset_length_le hKnd hall
  have hleneq : ord.length = g.workloads.length := by omega
  refine ⟨ord, ?_, hnd, fun x => ⟨hsub x, hall x⟩,
    fun u hu v hv => (hprop u hu v hv).2⟩
  rw [hteq, if_pos hleneq]

/-- On a built graph whose adjacency structure has a cycle, Kahn's loop
necessarily emits fewer nodes than there are workloads, so the defensive
length check of `topological_sort` raises `CircularDependencyError`. -/
theorem topological_sort_cycle_error {ws : List Workload} {g : DependencyGraph}
    (hb : buildGraph ws = .ok g) (hc : hasCycleAdj g.adjacency_list) :
    topological_sort g = .error .circularDependency := by
  obtain ⟨ord, hteq, hnd, hsub, hprop, hstuck⟩ := topological_sort_master hb
  obtain ⟨hwl, hka, _, _, _, _⟩ := buildGraph_ok_parts hb
  have hKnd : (dictKeys g.adjacency_list).Nodup := by
    rw [hka]
    exact workloadsDict_keys_nodup ws
  have hKlen : (dictKeys g.adjacency_list).length = g.workloads.length := by
    rw [hka, hwl]
    simp [dictKeys]
  have hne : ord.length ≠ g.workloads.length := by
    intro hlen
    have hsubF : ord.toFinset ⊆ (dictKeys g.adjacency_list).toFinset := by
      intro x hx
      rw [List.mem_toFinset] at hx ⊢
      exact hsub x hx
    have hcard : (dictKeys g.adjacency_list).toFinset.card
        ≤ ord.toFinset.card := by
      rw [List.toFinset_card_of_nodup hKnd, List.toFinset_card_of_nodup hnd]
      omega
    have heqF := Finset.eq_of_subset_of_card_le hsubF hcard
    have hall : ∀ x ∈ dictKeys g.adjacency_list, x ∈ ord := by
      intro x hx
      have hxF : x ∈ ord.toFinset := by
        rw [heqF, List.mem_toFinset]
        exact hx
      rwa [List.mem_toFinset] at hxF
    obtain ⟨b, p, hbp, hpb⟩ := hc
    have hbord : b ∈ ord := hall b (adjGet_ne_nil_mem (List.ne_nil_of_mem hbp))
    have hdesc : ∀ x, gReach g.adjacency_list x b → x ∈ ord →
        ord.indexOf b ≤ ord.indexOf x := by
      intro x hx
      induction hx using Relation.ReflTransGen.head_induction_on with
      | refl => exact fun _ => le_refl _
      | head h' h ih =>
        intro hxo
        have h1 := hprop _ hxo _ h'
        exact le_trans (ih h1.1) (le_of_lt h1.2)
    have h2 := hprop b hbord p hbp
    have h3 := hdesc p hpb h2.1
    omega
  rw [hteq, if_neg hne]

/-- C2: for every fleet whose dependency graph builds successfully (all
prerequisite ids present, none self-referential), if the dependency edges
are acyclic then `topological_sort` returns a permutation of all workload
ids in which, for every dependency edge, the prerequisite's index precedes
the dependent's index; and if the edges contain a cycle,
`topological_sort` raises `CircularDependencyError`. -/
theorem topological_sort_linearizes (ws : List Workload) (g : DependencyGraph)
    (hb : buildGraph ws = .ok g) :
    (¬ wsHasCycle ws →
      ∃ order, topological_sort g = .ok order ∧
        order.Perm (dictKeys (workloadsDict ws)) ∧
        ∀ u v, wsEdge ws u v → order.indexOf v < order.indexOf u) ∧
    (wsHasCycle ws → topological_sort g = .error .circularDependency) := by
  obtain ⟨hwl, hka, hkr, hadj, hrev, htr⟩ := buildGraph_ok_parts hb
  constructor
  · intro hnc
    have hnc' : ¬ hasCycleAdj g.adjacency_list :=
      fun h => hnc ((hasCycleAdj_iff_wsHasCycle hb).mp h)
    obtain ⟨ord, hok, hnd, hmem, hidx⟩ := topological_sort_acyclic_ok hb hnc'
    refine ⟨ord, hok, ?_, ?_⟩
    · rw [List.perm_ext_iff_of_nodup hnd (workloadsDict_keys_nodup ws)]
      intro a
      rw [hmem a, hka]
    · intro u v he
      have hu : u ∈ dictKeys g.adjacency_list := by
        obtain ⟨w, hw, rfl, _⟩ := he
        rw [hka]
        exact dictValues_id_mem_keys ws w hw
      exact hidx u ((hmem u).mpr hu) v ((hadj u v).mpr he)
  · intro hc
    exact topological_sort_cycle_error hb ((hasCycleAdj_iff_wsHasCycle hb).mpr hc)

/-- A two-workload chain: workload 2 depends on workload 1. -/
def chainFleet : List Workload := [mkWorkload 1 [], mkWorkload 2 [1]]

/-- The graph `_build_graph` produces for `chainFleet`. -/
def chainGraph : DependencyGraph where
  workloads := workloadsDict chainFleet
  adjacency_list := [(1, []), (2, [1])]
  reverse_adjacency := [(1, [2]), (2, [])]

theorem topological_sort_linearizes_witness :
    ∃ order, topological_sort chainGraph = .ok order ∧
      order.Perm (dictKeys (workloadsDict chainFleet)) ∧
      ∀ u v, wsEdge chainFleet u v → order.indexOf v < order.indexOf u := by
  have hb : buildGraph chainFleet = .ok chainGraph := rfl
  have hnc : ¬ wsHasCycle chainFleet := by
    intro hcyc
    have h1 := (hasCycleAdj_iff_wsHasCycle hb).mpr hcyc
    have h2 := (validateGraph_iff hb).1.mpr h1
    exact absurd h2 (by decide)
  exact (topological_sort_linearizes chainFleet chainGraph hb).1 hnc

/-! ### Fleet optimization (`optimize_fleet` and its helpers) -/

/-- `FleetOptimizationResult` from `models.py` (the fields
`optimize_fleet` populates). -/
structure FleetOptimizationResult where
  schedules : List ScheduleResult
  total_cost_savings : ℚ
  total_carbon_savings_kg : ℚ
  total_workloads : ℕ
  dependency_order : List ℕ
deriving DecidableEq, Repr

/-- The dependency loop of `_apply_dependency_constraints`: fold
`earliest_start` over the workload's dependencies, raising on a
prerequisite missing from the completed-schedules map, and taking the
max with `optimal_end + min_delay_hours` for completion-gated ones. -/
def earliestStartLoop (w : Workload) (completed : List (ℕ × ScheduleResult)) :
    List WorkloadDependency → ℚ → Except ArboricError ℚ
  | [], acc => .ok acc
  | dep :: rest, acc =>
    match dictGet? dep.source_workload_id completed with
    | none => .error (.missingPrereq w.name dep.source_workload_id)
    | some prereq =>
      if dep.depends_on_completion then
        earliestStartLoop w completed rest
          (max acc (prereq.optimal_end + dep.min_delay_hours))
      else earliestStartLoop w completed rest acc

/-- Lines 433-435 of `autopilot.py`: copy the forecast with every
timestamp shifted forward by `earliest - baseline`, then keep only the
rows at or after `earliest`. -/
def shiftedForecast (forecast : List ForecastSample) (earliest baseline : ℚ) :
    List ForecastSample :=
  let time_shift := earliest - baseline
  (forecast.map (fun s => { s with ts := s.ts + time_shift })).filter
    (fun s => earliest ≤ s.ts)

/-- `Autopilot._apply_dependency_constraints`.  The `[] , _ :: _` case
stands for the `IndexError` Python would raise reading
`forecast_df.index[0]` of an empty frame; it is unreachable from the
fleet loop, where the first workload in topological order has no
dependencies and an empty forecast already fails inside
`optimize_schedule`. -/
def applyDependencyConstraints (w : Workload) (forecast : List ForecastSample)
    (completed : List (ℕ × ScheduleResult)) :
    Except ArboricError (List ForecastSample) :=
  match w.dependencies, forecast with
  | [], _ => .ok forecast
  | _ :: _, [] => .error .emptyForecast
  | _ :: _, f0 :: _ =>
    let baseline_start := f0.ts
    match earliestStartLoop w completed w.dependencies baseline_start with
    | .error e => .error e
    | .ok earliest_start =>
      let workload_deadline := baseline_start + w.deadline_hours
      let latest_possible_end := earliest_start + w.duration_hours
      if workload_deadline < latest_possible_end then
        .error (.deadlineInfeasible w.name earliest_start workload_deadline)
      else if baseline_start < earliest_start then
        let shifted := shiftedForecast forecast earliest_start baseline_start
        if shifted = [] then
          .error (.horizonTooShort w.name earliest_start (tsGet forecast (-1)))
        else .ok shifted
      else .ok forecast

/-- The dependency loop of `_validate_schedule_constraints`.  A missing
key models the `KeyError` Python dict indexing would raise. -/
def validateConstraintsLoop (result : ScheduleResult) (w : Workload)
    (completed : List (ℕ × ScheduleResult)) :
    List WorkloadDependency → Except ArboricError Unit
  | [] => .ok ()
  | dep :: rest =>
    match dictGet? dep.source_workload_id completed with
    | none => .error (.keyError dep.source_workload_id)
    | some prereq =>
      if dep.depends_on_completion then
        let min_start := prereq.optimal_end + dep.min_delay_hours
        if result.optimal_start < min_start then
          .error (.constraintViolation w.name result.optimal_start min_start)
        else validateConstraintsLoop result w completed rest
      else validateConstraintsLoop result w completed rest

/-- `Autopilot._validate_schedule_constraints`. -/
def validateScheduleConstraints (result : ScheduleResult) (w : Workload)
    (completed : List (ℕ × ScheduleResult)) : Except ArboricError Unit :=
  validateConstraintsLoop result w completed w.dependencies

/-- The `for workload_id in execution_order:` loop of `optimize_fleet`,
threading the schedule list, the completed-schedules map and the two
savings accumulators. -/
def fleetLoop (cfg : OptimizationConfig) (graph : DependencyGraph)
    (forecast : List ForecastSample) :
    List ℕ → List ScheduleResult → List (ℕ × ScheduleResult) → ℚ → ℚ →
    Except ArboricError
      (List ScheduleResult × List (ℕ × ScheduleResult) × ℚ × ℚ)
  | [], schedules, completed, tc, tk => .ok (schedules, completed, tc, tk)
  | wid :: rest, schedules, completed, tc, tk =>
    match dictGet? wid graph.workloads with
    | none => .error (.keyError wid)
    | some workload =>
      match applyDependencyConstraints workload forecast completed with
      | .error e => .error e
      | .ok constrained =>
        match optimize_schedule cfg workload constrained with
        | .error e => .error e
        | .ok result =>
          match validateScheduleConstraints result workload completed with
          | .error e => .error e
          | .ok _ =>
            fleetLoop cfg graph forecast rest (schedules ++ [result])
              (dictInsert wid result completed)
              (tc + result.cost_savings) (tk + result.carbon_savings_kg)

/-- `Autopilot.optimize_fleet`: empty-fleet early return, graph build and
validation, topological sort, then the per-workload loop. -/
def optimize_fleet (cfg : OptimizationConfig) (ws : List Workload)
    (forecast : List ForecastSample) :
    Except ArboricError FleetOptimizationResult :=
  match ws with
  | [] =>
    .ok { schedules := [], total_cost_savings := 0,
          total_carbon_savings_kg := 0, total_workloads := 0,
          dependency_order := [] }
  | _ :: _ =>
    match dependencyGraphInit ws with
    | .error e => .error e
    | .ok g =>
      match topological_sort g with
      | .error e => .error e
      | .ok execution_order =>
        match fleetLoop cfg g forecast execution_order [] [] 0 0 with
        | .error e => .error e
        | .ok st =>
          .ok { schedules := st.1, total_cost_savings := st.2.2.1,
                total_carbon_savings_kg := st.2.2.2,
                total_workloads := ws.length,
                dependency_order := execution_order }

/-! ### Lemmas about the fleet helpers -/

theorem dictGet?_dictInsert {α : Type} (k k' : ℕ) (v : α)
    (d : List (ℕ × α)) :
    dictGet? k (dictInsert k' v d)
      = if k' = k then some v else dictGet? k d := by
  induction d with
  | nil =>
    by_cases h : k' = k
    · simp [dictInsert, dictGet?, h]
    · simp [dictInsert, dictGet?, h]
  | cons p rest ih =>
    obtain ⟨k0, v0⟩ := p
    by_cases h0 : k0 = k'
    · subst h0
      by_cases h : k0 = k
      · subst h
        simp [dictInsert, dictGet?]
      · simp [dictInsert, dictGet?, h]
    · by_cases h : k0 = k
      · subst h
        simp [dictInsert, dictGet?, h0, Ne.symm h0]
      · simp [dictInsert, dictGet?, h0, h, ih]

theorem dictGet?_mem {α : Type} : ∀ {d : List (ℕ × α)} {k : ℕ} {v : α},
    dictGet? k d = some v → (k, v) ∈ d := by
  intro d
  induction d with
  | nil => intro k v h; simp [dictGet?] at h
  | cons p rest ih =>
    intro k v h
    obtain ⟨k0, v0⟩ := p
    by_cases h0 : k0 = k
    · subst h0
      simp only [dictGet?, if_pos rfl] at h
      cases h
      exact List.mem_cons_self _ _
    · simp only [dictGet?, if_neg h0] at h
      exact List.mem_cons_of_mem _ (ih h)

theorem mem_dictKeys_some {α : Type} {d : List (ℕ × α)} {k : ℕ}
    (h : k ∈ dictKeys d) : ∃ v, dictGet? k d = some v := by
  cases hv : dictGet? k d with
  | none => exact absurd ((dictGet?_eq_none_iff k d).mp hv) (by simp [h])
  | some v => exact ⟨v, rfl⟩

/-- The dependency fold of `_apply_dependency_constraints` succeeds when
every prerequisite id is a key of the completed-schedules map, and its
result dominates the initial value and every completion-gated
constraint. -/
theorem earliestStartLoop_spec (w : Workload)
    (completed : List (ℕ × ScheduleResult)) :
    ∀ (deps : List WorkloadDependency) (acc : ℚ),
      (∀ dep ∈ deps, dep.source_workload_id ∈ dictKeys completed) →
      ∃ es, earliestStartLoop w completed deps acc = .ok es ∧ acc ≤ es ∧
        ∀ dep ∈ deps, dep.depends_on_completion = true →
          ∀ pr, dictGet? dep.source_workload_id completed = some pr →
            pr.optimal_end + dep.min_delay_hours ≤ es := by
  intro deps
  induction deps with
  | nil =>
    intro acc _
    exact ⟨acc, rfl, le_refl _, by simp⟩
  | cons dep rest ih =>
    intro acc hk
    obtain ⟨pr0, hpr0⟩ := mem_dictKeys_some (hk dep (List.mem_cons_self _ _))
    have hkrest : ∀ d ∈ rest, d.source_workload_id ∈ dictKeys completed :=
      fun d hd => hk d (List.mem_cons_of_mem _ hd)
    by_cases hgate : dep.depends_on_completion = true
    · obtain ⟨es, hes, hle, hdom⟩ :=
        ih (max acc (pr0.optimal_end + dep.min_delay_hours)) hkrest
      refine ⟨es, ?_, le_trans (le_max_left _ _) hle, ?_⟩
      · simp only [earliestStartLoop, hpr0, hgate, if_pos]
        exact hes
      · intro d hd hgate' pr hpr
        rcases List.mem_cons.mp hd with rfl | hd'
        · rw [hpr0] at hpr
          cases hpr
          exact le_trans (le_max_right _ _) hle
        · exact hdom d hd' hgate' pr hpr
    · obtain ⟨es, hes, hle, hdom⟩ := ih acc hkrest
      refine ⟨es, ?_, hle, ?_⟩
      · simp only [earliestStartLoop, hpr0, hgate]
        simpa [Bool.not_eq_true] using hes
      · intro d hd hgate' pr hpr
        rcases List.mem_cons.mp hd with rfl | hd'
        · exact absurd hgate' hgate
        · exact hdom d hd' hgate' pr hpr

/-- Every row of the shifted, truncated forecast sits at or after
`earliest`. -/
theorem shiftedForecast_mem_ge {forecast : List ForecastSample}
    {earliest baseline : ℚ} :
    ∀ s ∈ shiftedForecast forecast earliest baseline, earliest ≤ s.ts := by
  intro s hs
  have := List.mem_filter.mp hs
  simpa using this.2

/-- The shifted forecast of a non-empty forecast is non-empty: its first
row lands exactly on `earliest`. -/
theorem shiftedForecast_ne_nil (f0 : ForecastSample)
    (rest : List ForecastSample) (earliest : ℚ) :
    shiftedForecast (f0 :: rest) earliest f0.ts ≠ [] := by
  simp only [shiftedForecast, List.map_cons, List.filter_cons]
  have hts : earliest ≤ f0.ts + (earliest - f0.ts) := by ring_nf; exact le_refl _
  rw [if_pos (by simpa using hts)]
  exact List.cons_ne_nil _ _

/-- The dependency loop of `_validate_schedule_constraints` passes when
every prerequisite is present and every completion-gated bound is met. -/
theorem validateConstraintsLoop_ok (result : ScheduleResult) (w : Workload)
    (completed : List (ℕ × ScheduleResult)) :
    ∀ deps : List WorkloadDependency,
      (∀ dep ∈ deps, dep.source_workload_id ∈ dictKeys completed) →
      (∀ dep ∈ deps, dep.depends_on_completion = true →
        ∀ pr, dictGet? dep.source_workload_id completed = some pr →
          pr.optimal_end + dep.min_delay_hours ≤ result.optimal_start) →
      validateConstraintsLoop result w completed deps = .ok () := by
  intro deps
  induction deps with
  | nil => intro _ _; rfl
  | cons dep rest ih =>
    intro hk hb
    obtain ⟨pr0, hpr0⟩ := mem_dictKeys_some (hk dep (List.mem_cons_self _ _))
    have hrec := ih (fun d hd => hk d (List.mem_cons_of_mem _ hd))
      (fun d hd => hb d (List.mem_cons_of_mem _ hd))
    by_cases hgate : dep.depends_on_completion = true
    · have hbound := hb dep (List.mem_cons_self _ _) hgate pr0 hpr0
      simp only [validateConstraintsLoop, hpr0, hgate, if_pos]
      rw [if_neg (by exact not_lt.mpr hbound)]
      exact hrec
    · simp only [validateConstraintsLoop, hpr0, hgate]
      simpa [Bool.not_eq_true] using hrec

/-- Unfolding of `_apply_dependency_constraints` for a workload with
dependencies, a non-empty forecast and a successful dependency fold. -/
theorem applyDependencyConstraints_cons_eq (w : Workload)
    (f0 : ForecastSample) (rest : List ForecastSample)
    (completed : List (ℕ × ScheduleResult))
    {dep0 : WorkloadDependency} {deps' : List WorkloadDependency}
    (hdeps : w.dependencies = dep0 :: deps') {es : ℚ}
    (hes : earliestStartLoop w completed (dep0 :: deps') f0.ts = .ok es) :
    applyDependencyConstraints w (f0 :: rest) completed =
      (if f0.ts + w.deadline_hours < es + w.duration_hours then
        .error (.deadlineInfeasible w.name es (f0.ts + w.deadline_hours))
      else if f0.ts < es then
        if shiftedForecast (f0 :: rest) es f0.ts = [] then
          .error (.horizonTooShort w.name es (tsGet (f0 :: rest) (-1)))
        else .ok (shiftedForecast (f0 :: rest) es f0.ts)
      else .ok (f0 :: rest)) := by
  obtain ⟨wid, wname, wdur, wpw, wprio, wdeadpr, wdeps⟩ := w
  change wdeps = dep0 :: deps' at hdeps
  subst hdeps
  simp only [applyDependencyConstraints]
  rw [hes]

/-- `_apply_dependency_constraints` with every prerequisite present: the
only reachable errors are user-facing (empty forecast, infeasible
deadline, short horizon), and on success every row of the returned
forecast is at or after every completion-gated constraint. -/
theorem applyDependencyConstraints_cases (w : Workload)
    (forecast : List ForecastSample) (completed : List (ℕ × ScheduleResult))
    (hsort : List.Pairwise (fun a b : ForecastSample => a.ts ≤ b.ts) forecast)
    (hkeys : ∀ dep ∈ w.dependencies, dep.source_workload_id ∈ dictKeys completed) :
    (∀ e, applyDependencyConstraints w forecast completed = .error e →
      e = .emptyForecast ∨
      (∃ n a b, e = .deadlineInfeasible n a b) ∨
      (∃ n a b, e = .horizonTooShort n a b)) ∧
    (∀ constrained,
      applyDependencyConstraints w forecast completed = .ok constrained →
      ∀ dep ∈ w.dependencies, dep.depends_on_completion = true →
        ∀ pr, dictGet? dep.source_workload_id completed = some pr →
          ∀ s ∈ constrained, pr.optimal_end + dep.min_delay_hours ≤ s.ts) := by
  cases hdeps : w.dependencies with
  | nil =>
    have heq : applyDependencyConstraints w forecast completed = .ok forecast := by
      obtain ⟨wid, wname, wdur, wpw, wprio, wdeadpr, wdeps⟩ := w
      change wdeps = [] at hdeps
      subst hdeps
      simp [applyDependencyConstraints]
    constructor
    · intro e he
      rw [heq] at he
      exact Except.noConfusion he
    · intro constrained _ dep hdep
      exact absurd hdep (List.not_mem_nil _)
  | cons dep0 deps' =>
    match forecast, hsort with
    | [], _ =>
      have heq : applyDependencyConstraints w [] completed
          = .error .emptyForecast := by
        obtain ⟨wid, wname, wdur, wpw, wprio, wdeadpr, wdeps⟩ := w
        change wdeps = dep0 :: deps' at hdeps
        subst hdeps
        simp [applyDependencyConstraints]
      constructor
      · intro e he
        rw [heq] at he
        cases he
        exact Or.inl rfl
      · intro constrained hc
        rw [heq] at hc
        exact Except.noConfusion hc
    | f0 :: rest, hsort =>
      have hkeys' : ∀ dep ∈ dep0 :: deps',
          dep.source_workload_id ∈ dictKeys completed := by
        rw [← hdeps]
        exact hkeys
      obtain ⟨es, hes, hacc, hdom⟩ :=
        earliestStartLoop_spec w completed (dep0 :: deps') f0.ts hkeys'
      have heq := applyDependencyConstraints_cons_eq w f0 rest completed hdeps hes
      by_cases hdl : f0.ts + w.deadline_hours < es + w.duration_hours
      · rw [if_pos hdl] at heq
        constructor
        · intro e he
          rw [heq] at he
          cases he
          exact Or.inr (Or.inl ⟨_, _, _, rfl⟩)
        · intro constrained hc
          rw [heq] at hc
          exact Except.noConfusion hc
      · rw [if_neg hdl] at heq
        by_cases hsh : f0.ts < es
        · rw [if_pos hsh] at heq
          by_cases hnil : shiftedForecast (f0 :: rest) es f0.ts = []
          · rw [if_pos hnil] at heq
            constructor
            · intro e he
              rw [heq] at he
              cases he
              exact Or.inr (Or.inr ⟨_, _, _, rfl⟩)
            · intro constrained hc
              rw [heq] at hc
              exact Except.noConfusion hc
          · rw [if_neg hnil] at heq
            constructor
            · intro e he
              rw [heq] at he
              exact Except.noConfusion he
            · intro constrained hc
              rw [heq] at hc
              cases hc
              intro dep hdep hgate pr hpr s hs
              have h1 := shiftedForecast_mem_ge s hs
              have h2 : pr.optimal_end + dep.min_delay_hours ≤ es :=
                hdom dep hdep hgate pr hpr
              exact le_trans h2 h1
        · rw [if_neg hsh] at heq
          constructor
          · intro e he
            rw [heq] at he
            exact Except.noConfusion he
          · intro constrained hc
            rw [heq] at hc
            cases hc
            intro dep hdep hgate pr hpr s hs
            have h2 : pr.optimal_end + dep.min_delay_hours ≤ es :=
              hdom dep hdep hgate pr hpr
            have hesf0 : es ≤ f0.ts := not_lt.mp hsh
            have hf0s : f0.ts ≤ s.ts := by
              rcases List.mem_cons.mp hs with rfl | hs'
              · exact le_refl _
              · exact (List.pairwise_cons.mp hsort).1 s hs'
            exact le_trans h2 (le_trans hesf0 hf0s)

/-! ### Unfolding equations for optimize_schedule -/

theorem optimize_schedule_critical_eq (cfg : OptimizationConfig) (w : Workload)
    (f0 : ForecastSample) (rest : List ForecastSample)
    (hc : w.priority = .critical) :
    optimize_schedule cfg w (f0 :: rest) =
      .ok
        { workload := w
          optimal_start := f0.ts
          optimal_end := f0.ts + w.duration_hours
          baseline_start := f0.ts
          baseline_end := f0.ts + w.duration_hours
          optimized_cost := (calculateWindowScore cfg
            ((f0 :: rest).take (windowsNeeded w (resolutionHours (f0 :: rest)))) w).2.1
          optimized_carbon_kg := (calculateWindowScore cfg
            ((f0 :: rest).take (windowsNeeded w (resolutionHours (f0 :: rest)))) w).2.2
          optimized_avg_price := mean (((f0 :: rest).take
            (windowsNeeded w (resolutionHours (f0 :: rest)))).map ForecastSample.price)
          optimized_avg_carbon := mean (((f0 :: rest).take
            (windowsNeeded w (resolutionHours (f0 :: rest)))).map ForecastSample.co2_intensity)
          baseline_cost := (calculateWindowScore cfg
            ((f0 :: rest).take (windowsNeeded w (resolutionHours (f0 :: rest)))) w).2.1
          baseline_carbon_kg := (calculateWindowScore cfg
            ((f0 :: rest).take (windowsNeeded w (resolutionHours (f0 :: rest)))) w).2.2
          baseline_avg_price := mean (((f0 :: rest).take
            (windowsNeeded w (resolutionHours (f0 :: rest)))).map ForecastSample.price)
          baseline_avg_carbon := mean (((f0 :: rest).take
            (windowsNeeded w (resolutionHours (f0 :: rest)))).map ForecastSample.co2_intensity) } := by
  simp only [optimize_schedule, if_pos hc]

/-- The search state reached by the window search of `optimize_schedule`
on a non-empty forecast for a non-critical workload. -/
def finalState (cfg : OptimizationConfig) (w : Workload) (f0 : ForecastSample)
    (rest : List ForecastSample) : SearchState :=
  searchLoop cfg w (f0 :: rest) (windowsNeeded w (resolutionHours (f0 :: rest)))
    (intRange (minDelayWindows cfg (resolutionHours (f0 :: rest)))
      (maxStartIdx w (f0 :: rest) (f0.ts + w.deadline_hours)
        (windowsNeeded w (resolutionHours (f0 :: rest)))))
    ⟨none, 0,
      (calculateWindowScore cfg
        ((f0 :: rest).take (windowsNeeded w (resolutionHours (f0 :: rest)))) w).2.1,
      (calculateWindowScore cfg
        ((f0 :: rest).take (windowsNeeded w (resolutionHours (f0 :: rest)))) w).2.2⟩

theorem optimize_schedule_noncritical_eq (cfg : OptimizationConfig) (w : Workload)
    (f0 : ForecastSample) (rest : List ForecastSample)
    (hc : ¬ w.priority = .critical) :
    optimize_schedule cfg w (f0 :: rest) =
      .ok
        { workload := w
          optimal_start := tsGet (f0 :: rest) (finalState cfg w f0 rest).best_start_idx
          optimal_end := tsGet (f0 :: rest) (finalState cfg w f0 rest).best_start_idx
            + w.duration_hours
          baseline_start := f0.ts
          baseline_end := f0.ts + w.duration_hours
          optimized_cost := (finalState cfg w f0 rest).best_cost
          optimized_carbon_kg := (finalState cfg w f0 rest).best_carbon
          optimized_avg_price := mean ((pySlice (f0 :: rest)
            (finalState cfg w f0 rest).best_start_idx
            ((finalState cfg w f0 rest).best_start_idx
              + windowsNeeded w (resolutionHours (f0 :: rest)))).map ForecastSample.price)
          optimized_avg_carbon := mean ((pySlice (f0 :: rest)
            (finalState cfg w f0 rest).best_start_idx
            ((finalState cfg w f0 rest).best_start_idx
              + windowsNeeded w (resolutionHours (f0 :: rest)))).map ForecastSample.co2_intensity)
          baseline_cost := (calculateWindowScore cfg
            ((f0 :: rest).take (windowsNeeded w (resolutionHours (f0 :: rest)))) w).2.1
          baseline_carbon_kg := (calculateWindowScore cfg
            ((f0 :: rest).take (windowsNeeded w (resolutionHours (f0 :: rest)))) w).2.2
          baseline_avg_price := mean (((f0 :: rest).take
            (windowsNeeded w (resolutionHours (f0 :: rest)))).map ForecastSample.price)
          baseline_avg_carbon := mean (((f0 :: rest).take
            (windowsNeeded w (resolutionHours (f0 :: rest)))).map ForecastSample.co2_intensity) } := by
  simp only [optimize_schedule, if_neg hc, finalState]

/-! ### Claim C5: CRITICAL priority short-circuits to the baseline -/

theorem searchLoop_best_le (cfg : OptimizationConfig) (w : Workload)
    (forecast : List ForecastSample) (wn : ℕ) (hwn : 1 ≤ wn) :
    ∀ (cand : List ℤ) (st : SearchState),
      st.best_start_idx ≤ (forecast.length : ℤ) - 1 →
      (searchLoop cfg w forecast wn cand st).best_start_idx
        ≤ (forecast.length : ℤ) - 1 := by
  intro cand
  induction cand with
  | nil => intro st h; exact h
  | cons i rest ih =>
    intro st h
    simp only [searchLoop]
    split
    · exact h
    · rename_i hlen
      refine ih _ ?_
      split
      · show i ≤ (forecast.length : ℤ) - 1
        omega
      · exact h

theorem getD_mem_of_lt : ∀ {xs : List ℚ} {k : ℕ}, k < xs.length →
    xs.getD k 0 ∈ xs := by
  intro xs
  induction xs with
  | nil => intro k h; simp at h
  | cons a l ih =>
    intro k h
    cases k with
    | zero => simp [List.getD]
    | succ n =>
      simp only [List.getD_cons_succ]
      exact List.mem_cons_of_mem _ (ih (by simpa using h))

/-- `forecast_df.index[i]` is the timestamp of an actual row whenever
`i ≤ len - 1` (negative indices wrap, and a doubly-negative index clamps
to the first row). -/
theorem tsGet_mem {f0 : ForecastSample} {rest : List ForecastSample} {i : ℤ}
    (hi : i ≤ ((f0 :: rest).length : ℤ) - 1) :
    tsGet (f0 :: rest) i ∈ (f0 :: rest).map ForecastSample.ts := by
  have hpos : 0 < (f0 :: rest).length := by simp
  by_cases h0 : i < 0
  · rw [tsGet, if_pos h0]
    simp only [tsAt]
    apply getD_mem_of_lt
    simp only [List.length_map]
    omega
  · rw [tsGet, if_neg h0]
    simp only [tsAt]
    apply getD_mem_of_lt
    simp only [List.length_map]
    omega

/-- `optimize_schedule` records the workload it was given, and its chosen
start is the timestamp of one of the forecast rows it was given. -/
theorem optimize_schedule_start_mem (cfg : OptimizationConfig) (w : Workload) :
    ∀ {forecast : List ForecastSample} {r : ScheduleResult},
      optimize_schedule cfg w forecast = .ok r →
      r.workload = w ∧ r.optimal_start ∈ forecast.map ForecastSample.ts := by
  intro forecast r hok
  match forecast with
  | [] => exact Except.noConfusion hok
  | f0 :: rest =>
    by_cases hc : w.priority = .critical
    · rw [optimize_schedule_critical_eq cfg w f0 rest hc] at hok
      cases hok
      exact ⟨rfl, by simp⟩
    · rw [optimize_schedule_noncritical_eq cfg w f0 rest hc] at hok
      cases hok
      refine ⟨rfl, ?_⟩
      apply tsGet_mem
      have hwn : 1 ≤ windowsNeeded w (resolutionHours (f0 :: rest)) :=
        Nat.le_max_left 1 _
      refine searchLoop_best_le cfg w (f0 :: rest) _ hwn _ _ ?_
      show (0 : ℤ) ≤ ((f0 :: rest).length : ℤ) - 1
      simp

/-- `optimize_schedule` raises only `EmptyForecastError`. -/
theorem optimize_schedule_error_kind (cfg : OptimizationConfig) (w : Workload) :
    ∀ {forecast : List ForecastSample} {e : ArboricError},
      optimize_schedule cfg w forecast = .error e → e = .emptyForecast := by
  intro forecast e h
  match forecast with
  | [] =>
    have h0 : optimize_schedule cfg w [] = .error .emptyForecast := rfl
    rw [h0] at h
    cases h
    rfl
  | f0 :: rest =>
    by_cases hc : w.priority = .critical
    · rw [optimize_schedule_critical_eq cfg w f0 rest hc] at h
      exact Except.noConfusion h
    · rw [optimize_schedule_noncritical_eq cfg w f0 rest hc] at h
      exact Except.noConfusion h

theorem dictGet?_some_mem_keys {α : Type} {d : List (ℕ × α)} {k : ℕ} {v : α}
    (h : dictGet? k d = some v) : k ∈ dictKeys d := by
  by_contra hm
  rw [(dictGet?_eq_none_iff k d).mpr hm] at h
  exact Option.noConfusion h

theorem mem_done_of_indexOf_lt {done rest : List ℕ} {wid src : ℕ}
    (hnwid : wid ∉ done)
    (hlt : (done ++ wid :: rest).indexOf src
      < (done ++ wid :: rest).indexOf wid) :
    src ∈ done := by
  have hwid : (done ++ wid :: rest).indexOf wid = done.length := by
    rw [List.indexOf_append_of_not_mem hnwid]
    simp
  by_contra hsrc
  have h2 : (done ++ wid :: rest).indexOf src
      = done.length + (wid :: rest).indexOf src :=
    List.indexOf_append_of_not_mem hsrc
  omega

/-- The master invariant of the `optimize_fleet` processing loop: over a
topologically sorted id list, the loop only ever surfaces user-facing
errors, and on success the schedule list follows the id order, the
completed map mirrors it, and every completion-gated constraint holds in
the output. -/
theorem fleetLoop_master (cfg : OptimizationConfig) (g : DependencyGraph)
    (forecast : List ForecastSample)
    (hsort : List.Pairwise (fun a b : ForecastSample => a.ts ≤ b.ts) forecast)
    (ord : List ℕ) (hnd : ord.Nodup)
    (hprereq : ∀ u ∈ ord, ∀ v ∈ adjGet g.adjacency_list u,
      v ∈ ord ∧ ord.indexOf v < ord.indexOf u)
    (hwl : ∀ wid ∈ ord, ∃ w, dictGet? wid g.workloads = some w ∧ w.id = wid ∧
      ∀ dep ∈ w.dependencies, dep.source_workload_id ∈ adjGet g.adjacency_list wid) :
    ∀ (todo : List ℕ), ∀ (done : List ℕ) (schedules : List ScheduleResult)
      (completed : List (ℕ × ScheduleResult)) (tc tk : ℚ),
      ord = done ++ todo →
      dictKeys completed = done →
      (∀ p ∈ completed, p.2 ∈ schedules ∧ p.2.workload.id = p.1) →
      schedules.map (fun r => r.workload.id) = done →
      (∀ r ∈ schedules, ∀ dep ∈ r.workload.dependencies,
        dep.source_workload_id ∈ adjGet g.adjacency_list r.workload.id) →
      (∀ r ∈ schedules, ∀ dep ∈ r.workload.dependencies,
        dep.depends_on_completion = true →
        ∃ pr, dictGet? dep.source_workload_id completed = some pr ∧
          pr.optimal_end + dep.min_delay_hours ≤ r.optimal_start) →
      (∀ e, fleetLoop cfg g forecast todo schedules completed tc tk = .error e →
        e = .emptyForecast ∨
        (∃ n a b, e = .deadlineInfeasible n a b) ∨
        (∃ n a b, e = .horizonTooShort n a b)) ∧
      (∀ out, fleetLoop cfg g forecast todo schedules completed tc tk = .ok out →
        out.1.map (fun r => r.workload.id) = done ++ todo ∧
        (∀ r ∈ out.1, ∀ dep ∈ r.workload.dependencies,
          dep.source_workload_id ∈ adjGet g.adjacency_list r.workload.id) ∧
        (∀ r ∈ out.1, ∀ dep ∈ r.workload.dependencies,
          dep.depends_on_completion = true →
          ∃ pr, pr ∈ out.1 ∧ pr.workload.id = dep.source_workload_id ∧
            pr.optimal_end + dep.min_delay_hours ≤ r.optimal_start)) := by
  intro todo
  induction todo with
  | nil =>
    intro done schedules completed tc tk hord hkeys hent hmap hedge hcons
    constructor
    · intro e he
      exact Except.noConfusion he
    · intro out hout
      have h0 : fleetLoop cfg g forecast [] schedules completed tc tk
          = .ok (schedules, completed, tc, tk) := rfl
      rw [h0] at hout
      cases hout
      refine ⟨by simpa using hmap, hedge, ?_⟩
      intro r hr dep hdep hgate
      obtain ⟨pr, hpr, hb⟩ := hcons r hr dep hdep hgate
      obtain ⟨hmem, hid⟩ := hent _ (dictGet?_mem hpr)
      exact ⟨pr, hmem, hid, hb⟩
  | cons wid rest ih =>
    intro done schedules completed tc tk hord hkeys hent hmap hedge hcons
    have hmemord : wid ∈ ord := by
      rw [hord]
      exact List.mem_append_right _ (List.mem_cons_self _ _)
    obtain ⟨w, hwsome, hwid, hwdeps⟩ := hwl wid hmemord
    have hndall : (done ++ wid :: rest).Nodup := hord ▸ hnd
    have hnwid : wid ∉ done := by
      rcases List.nodup_append.mp hndall with ⟨_, _, hdisj⟩
      exact fun h => hdisj h (List.mem_cons_self _ _)
    have hkeysdep : ∀ dep ∈ w.dependencies,
        dep.source_workload_id ∈ dictKeys completed := by
      intro dep hdep
      have hsrc := hwdeps dep hdep
      obtain ⟨_, hlt⟩ := hprereq wid hmemord _ hsrc
      rw [hord] at hlt
      rw [hkeys]
      exact mem_done_of_indexOf_lt hnwid hlt
    have happly := applyDependencyConstraints_cases w forecast completed hsort hkeysdep
    cases happ : applyDependencyConstraints w forecast completed with
    | error e0 =>
      have hred : fleetLoop cfg g forecast (wid :: rest) schedules completed tc tk
          = .error e0 := by
        simp only [fleetLoop, hwsome, happ]
      constructor
      · intro e he
        rw [hred] at he
        cases he
        exact happly.1 e0 happ
      · intro out hout
        rw [hred] at hout
        exact Except.noConfusion hout
    | ok constrained =>
      cases hopt : optimize_schedule cfg w constrained with
      | error e0 =>
        have he0 : e0 = .emptyForecast := optimize_schedule_error_kind cfg w hopt
        have hred : fleetLoop cfg g forecast (wid :: rest) schedules completed tc tk
            = .error e0 := by
          simp only [fleetLoop, hwsome, happ, hopt]
        constructor
        · intro e he
          rw [hred] at he
          cases he
          exact Or.inl he0
        · intro out hout
          rw [hred] at hout
          exact Except.noConfusion hout
      | ok result =>
        obtain ⟨hrw, hrs⟩ := optimize_schedule_start_mem cfg w hopt
        have hbounds : ∀ dep ∈ w.dependencies, dep.depends_on_completion = true →
            ∀ pr, dictGet? dep.source_workload_id completed = some pr →
              pr.optimal_end + dep.min_delay_hours ≤ result.optimal_start := by
          intro dep hdep hgate pr hpr
          obtain ⟨s, hsmem, hsts⟩ := List.mem_map.mp hrs
          have hb := happly.2 constrained happ dep hdep hgate pr hpr s hsmem
          exact hsts ▸ hb
        have hval : validateScheduleConstraints result w completed = .ok () :=
          validateConstraintsLoop_ok result w completed w.dependencies hkeysdep hbounds
        have hred : fleetLoop cfg g forecast (wid :: rest) schedules completed tc tk
            = fleetLoop cfg g forecast rest (schedules ++ [result])
              (dictInsert wid result completed)
              (tc + result.cost_savings) (tk + result.carbon_savings_kg) := by
          simp only [fleetLoop, hwsome, happ, hopt, hval]
        have hkeys' : dictKeys (dictInsert wid result completed) = done ++ [wid] := by
          rw [dictKeys_dictInsert, hkeys]
          rw [if_neg hnwid]
        have hent' : ∀ p ∈ dictInsert wid result completed,
            p.2 ∈ schedules ++ [result] ∧ p.2.workload.id = p.1 := by
          intro p hp
          rcases mem_dictInsert p wid result completed hp with rfl | hp'
          · refine ⟨by simp, ?_⟩
            show result.workload.id = wid
            rw [hrw, hwid]
          · obtain ⟨h1, h2⟩ := hent p hp'
            exact ⟨List.mem_append_left _ h1, h2⟩
        have hmap' : (schedules ++ [result]).map (fun r => r.workload.id)
            = done ++ [wid] := by
          rw [List.map_append, hmap]
          simp [hrw, hwid]
        have hedge' : ∀ r ∈ schedules ++ [result], ∀ dep ∈ r.workload.dependencies,
            dep.source_workload_id ∈ adjGet g.adjacency_list r.workload.id := by
          intro r hr
          rcases List.mem_append.mp hr with hr' | hr'
          · exact hedge r hr'
          · have hreq : r = result := by simpa using hr'
            subst hreq
            rw [hrw, hwid]
            exact hwdeps
        have hcons' : ∀ r ∈ schedules ++ [result], ∀ dep ∈ r.workload.dependencies,
            dep.depends_on_completion = true →
            ∃ pr, dictGet? dep.source_workload_id (dictInsert wid result completed)
                = some pr ∧
              pr.optimal_end + dep.min_delay_hours ≤ r.optimal_start := by
          intro r hr dep hdep hgate
          rcases List.mem_append.mp hr with hr' | hr'
          · obtain ⟨pr, hpr, hb⟩ := hcons r hr' dep hdep hgate
            have hne : wid ≠ dep.source_workload_id := by
              intro he
              refine hnwid ?_
              rw [he, ← hkeys]
              exact dictGet?_some_mem_keys hpr
            refine ⟨pr, ?_, hb⟩
            rw [dictGet?_dictInsert, if_neg hne]
            exact hpr
          · have hreq : r = result := by simpa using hr'
            subst hreq
            have hdep' : dep ∈ w.dependencies := by
              rw [← hrw]
              exact hdep
            have hsrck := hkeysdep dep hdep'
            obtain ⟨pr, hpr⟩ := mem_dictKeys_some hsrck
            have hne : wid ≠ dep.source_workload_id := by
              intro he
              rw [← he, hkeys] at hsrck
              exact hnwid hsrck
            refine ⟨pr, ?_, hbounds dep hdep' hgate pr hpr⟩
            rw [dictGet?_dictInsert, if_neg hne]
            exact hpr
        have hord' : ord = (done ++ [wid]) ++ rest := by
          rw [hord]
          simp
        obtain ⟨herr, hok⟩ := ih (done ++ [wid]) (schedules ++ [result])
          (dictInsert wid result completed)
          (tc + result.cost_savings) (tk + result.carbon_savings_kg)
          hord' hkeys' hent' hmap' hedge' hcons'
        constructor
        · intro e he
          rw [hred] at he
          exact herr e he
        · intro out hout
          rw [hred] at hout
          obtain ⟨h1, h2, h3⟩ := hok out hout
          refine ⟨?_, h2, h3⟩
          rw [h1]
          simp

/-- A successful `DependencyGraph.__init__` implies a successful
`_build_graph` with the same graph. -/
theorem dependencyGraphInit_ok_build {ws : List Workload} {g : DependencyGraph}
    (hv : dependencyGraphInit ws = .ok g) : buildGraph ws = .ok g := by
  cases hbg : buildGraph ws with
  | error e =>
    rw [dependencyGraphInit, hbg] at hv
    exact Except.noConfusion hv
  | ok g' =>
    simp only [dependencyGraphInit, hbg] at hv
    cases hvg : validateGraph g' with
    | error e =>
      simp only [hvg] at hv
      exact Except.noConfusion hv
    | ok u =>
      simp only [hvg] at hv
      exact hv

/-- What a successful `topological_sort` guarantees, packaged for the
fleet loop: the order is duplicate-free, prerequisite-closed and
prerequisite-first, and every listed id resolves to its workload. -/
theorem topological_sort_ok_properties {ws : List Workload} {g : DependencyGraph}
    (hb : buildGraph ws = .ok g) {ord : List ℕ}
    (hok : topological_sort g = .ok ord) :
    ord.Nodup ∧
    (∀ u ∈ ord, ∀ v ∈ adjGet g.adjacency_list u,
      v ∈ ord ∧ ord.indexOf v < ord.indexOf u) ∧
    (∀ wid ∈ ord, ∃ w, dictGet? wid g.workloads = some w ∧ w.id = wid ∧
      ∀ dep ∈ w.dependencies, dep.source_workload_id ∈ adjGet g.adjacency_list wid) := by
  obtain ⟨ord0, hteq, hnd, hsub, hprop, hstuck⟩ := topological_sort_master hb
  obtain ⟨hwleq, hka, hkr, hadj, hrev, htr⟩ := buildGraph_ok_parts hb
  by_cases hlen : ord0.length = g.workloads.length
  · rw [hteq, if_pos hlen] at hok
    cases hok
    refine ⟨hnd, hprop, ?_⟩
    intro wid hwid
    have hk : wid ∈ dictKeys g.adjacency_list := hsub wid hwid
    rw [hka] at hk
    have hk' : wid ∈ dictKeys g.workloads := by
      rw [hwleq]
      exact hk
    obtain ⟨w, hw⟩ := mem_dictKeys_some hk'
    have hmemp : (wid, w) ∈ workloadsDict ws := by
      rw [← hwleq]
      exact dictGet?_mem hw
    have hid : w.id = wid := workloadsDict_id ws (wid, w) hmemp
    refine ⟨w, hw, hid, ?_⟩
    intro dep hdep
    rw [hadj]
    exact ⟨w, List.mem_map.mpr ⟨(wid, w), hmemp, rfl⟩, hid, dep, hdep, rfl⟩
  · rw [hteq, if_neg hlen] at hok
    exact Except.noConfusion hok

/-- C5: a CRITICAL workload on a non-empty forecast is scheduled at the
baseline start with zero delay and baseline cost/carbon metrics. -/
theorem critical_forces_baseline (cfg : OptimizationConfig) (w : Workload)
    (forecast : List ForecastSample) (hc : w.priority = .critical)
    (hne : forecast ≠ []) :
    ∃ r, optimize_schedule cfg w forecast = .ok r ∧
      r.optimal_start = r.baseline_start ∧
      r.delay_hours = 0 ∧
      r.optimized_cost = r.baseline_cost ∧
      r.optimized_carbon_kg = r.baseline_carbon_kg ∧
      r.optimized_avg_price = r.baseline_avg_price ∧
      r.optimized_avg_carbon = r.baseline_avg_carbon := by
  match forecast with
  | [] => exact absurd rfl hne
  | f0 :: rest =>
    refine ⟨_, optimize_schedule_critical_eq cfg w f0 rest hc, rfl, ?_, rfl, rfl, rfl, rfl⟩
    simp [ScheduleResult.delay_hours]

theorem critical_forces_baseline_witness :
    ∃ r, optimize_schedule defaultConfig
        { id := 1, name := "c", duration_hours := 1, power_draw_kw := 1,
          deadline_hours := 2, priority := .critical, dependencies := [] }
        [{ ts := 0, price := 1/10, co2_intensity := 100 },
         { ts := 1, price := 2/10, co2_intensity := 200 }] = .ok r ∧
      r.optimal_start = r.baseline_start ∧
      r.delay_hours = 0 ∧
      r.optimized_cost = r.baseline_cost ∧
      r.optimized_carbon_kg = r.baseline_carbon_kg ∧
      r.optimized_avg_price = r.baseline_avg_price ∧
      r.optimized_avg_carbon = r.baseline_avg_carbon :=
  critical_forces_baseline defaultConfig _ _ rfl (by decide)

/-! ### Claims C10 and C1: the window search respects the deadline -/

/-- C10: for a non-critical workload on a non-empty forecast whose
feasible start range is empty (`max_start_idx < min_delay_windows`), the
search loop body never runs: `optimize_schedule` succeeds with the optimal
window at the forecast's first sample and baseline cost/carbon, so the
configured minimum delay is not honored. -/
theorem degenerate_range_returns_baseline (cfg : OptimizationConfig) (w : Workload)
    (f0 : ForecastSample) (rest : List ForecastSample)
    (hc : ¬ w.priority = .critical)
    (hdeg : maxStartIdx w (f0 :: rest) (f0.ts + w.deadline_hours)
        (windowsNeeded w (resolutionHours (f0 :: rest)))
      < minDelayWindows cfg (resolutionHours (f0 :: rest))) :
    ∃ r, optimize_schedule cfg w (f0 :: rest) = .ok r ∧
      r.optimal_start = f0.ts ∧
      r.baseline_start = f0.ts ∧
      r.optimized_cost = r.baseline_cost ∧
      r.optimized_carbon_kg = r.baseline_carbon_kg := by
  have hnil := intRange_eq_nil hdeg
  have hfs : finalState cfg w f0 rest =
      ⟨none, 0,
        (calculateWindowScore cfg
          ((f0 :: rest).take (windowsNeeded w (resolutionHours (f0 :: rest)))) w).2.1,
        (calculateWindowScore cfg
          ((f0 :: rest).take (windowsNeeded w (resolutionHours (f0 :: rest)))) w).2.2⟩ := by
    rw [finalState, hnil]
    rfl
  refine ⟨_, optimize_schedule_noncritical_eq cfg w f0 rest hc, ?_, rfl, ?_, ?_⟩ <;>
    simp [hfs, tsGet_zero]

theorem degenerate_range_returns_baseline_witness :
    ∃ r, optimize_schedule
        { price_weight := 7/10, carbon_weight := 3/10, min_delay_hours := 10 }
        { id := 3, name := "d", duration_hours := 1, power_draw_kw := 1,
          deadline_hours := 2, priority := .normal, dependencies := [] }
        [{ ts := 0, price := 1/10, co2_intensity := 100 },
         { ts := 1, price := 2/10, co2_intensity := 200 },
         { ts := 2, price := 3/10, co2_intensity := 300 }] = .ok r ∧
      r.optimal_start = 0 ∧
      r.baseline_start = 0 ∧
      r.optimized_cost = r.baseline_cost ∧
      r.optimized_carbon_kg = r.baseline_carbon_kg :=
  degenerate_range_returns_baseline _ _ _ _ (by decide)
    (by norm_num [maxStartIdx, capStartIdx, minDelayWindows, pyInt, windowsNeeded,
      resolutionHours])

theorem finalState_cases (cfg : OptimizationConfig) (w : Workload)
    (f0 : ForecastSample) (rest : List ForecastSample) :
    (finalState cfg w f0 rest).best_start_idx = 0 ∨
    (minDelayWindows cfg (resolutionHours (f0 :: rest))
        ≤ (finalState cfg w f0 rest).best_start_idx ∧
      (finalState cfg w f0 rest).best_start_idx
        ≤ maxStartIdx w (f0 :: rest) (f0.ts + w.deadline_hours)
            (windowsNeeded w (resolutionHours (f0 :: rest)))) := by
  have h := searchLoop_best cfg w (f0 :: rest)
    (windowsNeeded w (resolutionHours (f0 :: rest)))
    (intRange (minDelayWindows cfg (resolutionHours (f0 :: rest)))
      (maxStartIdx w (f0 :: rest) (f0.ts + w.deadline_hours)
        (windowsNeeded w (resolutionHours (f0 :: rest)))))
    ⟨none, 0,
      (calculateWindowScore cfg
        ((f0 :: rest).take (windowsNeeded w (resolutionHours (f0 :: rest)))) w).2.1,
      (calculateWindowScore cfg
        ((f0 :: rest).take (windowsNeeded w (resolutionHours (f0 :: rest)))) w).2.2⟩
  rcases h with h | h
  · left; exact h
  · right; exact mem_intRange.mp h

theorem finalState_deadline (cfg : OptimizationConfig) (w : Workload)
    (f0 : ForecastSample) (rest : List ForecastSample)
    (hdur : w.duration_hours ≤ w.deadline_hours)
    (hmd : 0 ≤ cfg.min_delay_hours) (hres : 0 < resolutionHours (f0 :: rest)) :
    tsGet (f0 :: rest) (finalState cfg w f0 rest).best_start_idx
      + w.duration_hours ≤ f0.ts + w.deadline_hours := by
  rcases finalState_cases cfg w f0 rest with h0 | ⟨hlo, hhi⟩
  · rw [h0, tsGet_zero]
    linarith
  · have hmdw0 : 0 ≤ minDelayWindows cfg (resolutionHours (f0 :: rest)) :=
      pyInt_nonneg (div_nonneg hmd hres.le)
    have hB0 : 0 ≤ (finalState cfg w f0 rest).best_start_idx := le_trans hmdw0 hlo
    have hcap : maxStartIdx w (f0 :: rest) (f0.ts + w.deadline_hours)
        (windowsNeeded w (resolutionHours (f0 :: rest)))
        ≤ (((f0 :: rest).length : ℤ)
          - windowsNeeded w (resolutionHours (f0 :: rest))) :=
      capStartIdx_le _ _ _ _ _
    have h1wn : 1 ≤ windowsNeeded w (resolutionHours (f0 :: rest)) := le_max_left 1 _
    have hlen : ((finalState cfg w f0 rest).best_start_idx - 0).toNat
        < (f0 :: rest).length := by omega
    have hmain := capStartIdx_spec w.duration_hours (f0.ts + w.deadline_hours)
      (f0 :: rest) 0
      (((f0 :: rest).length : ℤ) - windowsNeeded w (resolutionHours (f0 :: rest)))
      (finalState cfg w f0 rest).best_start_idx hB0 hhi hlen
    have hts : tsGet (f0 :: rest) (finalState cfg w f0 rest).best_start_idx
        = tsAt (f0 :: rest) ((finalState cfg w f0 rest).best_start_idx - 0).toNat := by
      rw [tsGet, if_neg (by omega)]
      congr 1
      omega
    rw [hts]
    exact hmain

/-- C1: for every workload with `deadline_hours ≥ duration_hours` and
every non-empty forecast (with positive time resolution and non-negative
configured minimum delay), `optimize_schedule` succeeds and the result
satisfies `optimal_end - optimal_start = duration_hours`,
`baseline_end - baseline_start = duration_hours`, and
`optimal_end ≤ baseline_start + deadline_hours`, including the degenerate
case of an empty feasible start range. -/
theorem optimize_schedule_duration_and_deadline (cfg : OptimizationConfig)
    (w : Workload) (forecast : List ForecastSample) (hne : forecast ≠ [])
    (hdur : w.duration_hours ≤ w.deadline_hours)
    (hmd : 0 ≤ cfg.min_delay_hours) (hres : 0 < resolutionHours forecast) :
    ∃ r, optimize_schedule cfg w forecast = .ok r ∧
      r.optimal_end - r.optimal_start = w.duration_hours ∧
      r.baseline_end - r.baseline_start = w.duration_hours ∧
      r.optimal_end ≤ r.baseline_start + w.deadline_hours := by
  match forecast, hne with
  | f0 :: rest, _ =>
    by_cases hc : w.priority = .critical
    · refine ⟨_, optimize_schedule_critical_eq cfg w f0 rest hc, ?_, ?_, ?_⟩
      · simp
      · simp
      · simpa using add_le_add_left hdur f0.ts
    · refine ⟨_, optimize_schedule_noncritical_eq cfg w f0 rest hc, ?_, ?_, ?_⟩
      · simp
      · simp
      · simpa using finalState_deadline cfg w f0 rest hdur hmd hres

theorem optimize_schedule_duration_and_deadline_witness :
    ∃ r, optimize_schedule defaultConfig
        { id := 4, name := "n", duration_hours := 1, power_draw_kw := 1,
          deadline_hours := 2, priority := .normal, dependencies := [] }
        [{ ts := 0, price := 2/10, co2_intensity := 300 },
         { ts := 1, price := 1/10, co2_intensity := 100 },
         { ts := 2, price := 3/10, co2_intensity := 500 }] = .ok r ∧
      r.optimal_end - r.optimal_start = 1 ∧
      r.baseline_end - r.baseline_start = 1 ∧
      r.optimal_end ≤ r.baseline_start + 2 :=
  optimize_schedule_duration_and_deadline defaultConfig _ _ (by decide) (by norm_num)
    (by norm_num [defaultConfig]) (by norm_num [resolutionHours])

/-! ### Claim C9: derived savings fields of ScheduleResult -/

/-- C9: the derived fields of a `ScheduleResult` are always recomputed
from the stored base metrics: `cost_savings = baseline_cost - optimized_cost`,
`carbon_savings_kg = baseline_carbon_kg - optimized_carbon_kg`, and the
percentage fields are the ratio times 100, or 0 when the baseline metric
is 0. -/
theorem scheduleResult_derived_fields (r : ScheduleResult) :
    r.cost_savings = r.baseline_cost - r.optimized_cost ∧
    r.carbon_savings_kg = r.baseline_carbon_kg - r.optimized_carbon_kg ∧
    (r.baseline_cost ≠ 0 →
      r.cost_savings_percent = r.cost_savings / r.baseline_cost * 100) ∧
    (r.baseline_cost = 0 → r.cost_savings_percent = 0) ∧
    (r.baseline_carbon_kg ≠ 0 →
      r.carbon_savings_percent = r.carbon_savings_kg / r.baseline_carbon_kg * 100) ∧
    (r.baseline_carbon_kg = 0 → r.carbon_savings_percent = 0) := by
  refine ⟨rfl, rfl, ?_, ?_, ?_, ?_⟩ <;> intro h <;>
    simp [ScheduleResult.cost_savings_percent, ScheduleResult.carbon_savings_percent, h]

/-- A concrete schedule result used to instantiate the derived-field
claim. -/
def sampleResult : ScheduleResult where
  workload :=
    { id := 0
      name := "w"
      duration_hours := 1
      power_draw_kw := 1
      deadline_hours := 1
      priority := .normal
      dependencies := [] }
  optimal_start := 2
  optimal_end := 3
  baseline_start := 0
  baseline_end := 1
  optimized_cost := 3
  optimized_carbon_kg := 1
  optimized_avg_price := 1
  optimized_avg_carbon := 1
  baseline_cost := 4
  baseline_carbon_kg := 2
  baseline_avg_price := 1
  baseline_avg_carbon := 1

theorem scheduleResult_derived_fields_witness :
    sampleResult.baseline_cost ≠ 0 ∧
    sampleResult.cost_savings_percent =
      sampleResult.cost_savings / sampleResult.baseline_cost * 100 :=
  ⟨by decide, (scheduleResult_derived_fields sampleResult).2.2.1 (by decide)⟩

/-! ### Claim C8: internal-invariant error branches never fire -/

/-- C8: for every fleet whose dependency graph builds and validates, the
internal-invariant error branches never fire during `optimize_fleet`: the
run never reports a prerequisite missing from the completed-schedules map
(workloads are processed in topological order), never reports a post-hoc
constraint violation, and never hits a dict `KeyError`; only the
user-facing failures (empty forecast, infeasible deadline, short horizon)
can surface.  The forecast rows are assumed in non-decreasing timestamp
order, per the forecast interface contract. -/
theorem optimize_fleet_no_internal_errors (cfg : OptimizationConfig)
    (ws : List Workload) (forecast : List ForecastSample)
    (g : DependencyGraph) (hv : dependencyGraphInit ws = .ok g)
    (hsort : List.Pairwise (fun a b : ForecastSample => a.ts ≤ b.ts) forecast) :
    ∀ e, optimize_fleet cfg ws forecast = .error e →
      (∀ n p, e ≠ .missingPrereq n p) ∧
      (∀ n a b, e ≠ .constraintViolation n a b) ∧
      (∀ k, e ≠ .keyError k) := by
  intro e he
  have hb : buildGraph ws = .ok g := dependencyGraphInit_ok_build hv
  cases ws with
  | nil => exact Except.noConfusion he
  | cons w0 ws' =>
    simp only [optimize_fleet, hv] at he
    cases hts : topological_sort g with
    | error e0 =>
      obtain ⟨ord0, hteq, _, _, _, _⟩ := topological_sort_master hb
      have he0 : e0 = .circularDependency := by
        by_cases hlen : ord0.length = g.workloads.length
        · rw [hteq, if_pos hlen] at hts
          exact Except.noConfusion hts
        · rw [hteq, if_neg hlen] at hts
          cases hts
          rfl
      subst he0
      simp only [hts] at he
      cases he
      refine ⟨fun n p h => ?_, fun n a b h => ?_, fun k h => ?_⟩ <;> cases h
    | ok ord =>
      simp only [hts] at he
      obtain ⟨hnd, hprereq, hwl⟩ := topological_sort_ok_properties hb hts
      obtain ⟨herr, _⟩ := fleetLoop_master cfg g forecast hsort ord hnd hprereq hwl
        ord [] [] [] 0 0 (by simp) rfl (by simp) rfl (by simp) (by simp)
      cases hfl : fleetLoop cfg g forecast ord [] [] 0 0 with
      | error e0 =>
        simp only [hfl] at he
        rcases herr e0 hfl with h | ⟨n0, a0, b0, h⟩ | ⟨n0, a0, b0, h⟩ <;>
          subst h <;> cases he <;>
          exact ⟨fun n p h => absurd h (by simp), fun n a b h => absurd h (by simp),
            fun k h => absurd h (by simp)⟩
      | ok st =>
        simp only [hfl] at he
        exact Except.noConfusion he

theorem optimize_fleet_no_internal_errors_witness :
    (∀ n p, ArboricError.emptyForecast ≠ ArboricError.missingPrereq n p) ∧
    (∀ n a b, ArboricError.emptyForecast ≠ ArboricError.constraintViolation n a b) ∧
    (∀ k, ArboricError.emptyForecast ≠ ArboricError.keyError k) :=
  optimize_fleet_no_internal_errors defaultConfig chainFleet []
    chainGraph rfl List.Pairwise.nil ArboricError.emptyForecast rfl

/-! ### Claim C7: dependency-forced forecast shift and truncation -/

/-- C7: when the dependency fold forces `earliest_start` strictly past
the first forecast timestamp (and the deadline check passes),
`_apply_dependency_constraints` shifts the whole series forward by the
delta and truncates rows before `earliest_start`; if that truncation
empties the series the run fails with the error naming the forecast end
(the required horizon extension).  In fact the truncated series is never
empty — its first row lands exactly on `earliest_start` — so the
successful shifted forecast is always returned. -/
theorem dependency_shift_truncate (w : Workload) (f0 : ForecastSample)
    (rest : List ForecastSample) (completed : List (ℕ × ScheduleResult))
    {dep0 : WorkloadDependency} {deps' : List WorkloadDependency}
    (hdeps : w.dependencies = dep0 :: deps') {es : ℚ}
    (hes : earliestStartLoop w completed (dep0 :: deps') f0.ts = .ok es)
    (hdl : ¬ f0.ts + w.deadline_hours < es + w.duration_hours)
    (hgt : f0.ts < es) :
    (shiftedForecast (f0 :: rest) es f0.ts = [] →
      applyDependencyConstraints w (f0 :: rest) completed
        = .error (.horizonTooShort w.name es (tsGet (f0 :: rest) (-1)))) ∧
    applyDependencyConstraints w (f0 :: rest) completed
      = .ok (shiftedForecast (f0 :: rest) es f0.ts) ∧
    shiftedForecast (f0 :: rest) es f0.ts ≠ [] := by
  have heq := applyDependencyConstraints_cons_eq w f0 rest completed hdeps hes
  rw [if_neg hdl, if_pos hgt] at heq
  have hne := shiftedForecast_ne_nil f0 rest es
  refine ⟨fun h => absurd h hne, ?_, hne⟩
  rw [heq, if_neg hne]

/-- A concrete already-computed prerequisite schedule (id 1, finishing at
hour 3), used to instantiate the dependency-shift theorem. -/
def prereqSchedule : ScheduleResult where
  workload := mkWorkload 1 []
  optimal_start := 1
  optimal_end := 3
  baseline_start := 0
  baseline_end := 2
  optimized_cost := 0
  optimized_carbon_kg := 0
  optimized_avg_price := 0
  optimized_avg_carbon := 0
  baseline_cost := 0
  baseline_carbon_kg := 0
  baseline_avg_price := 0
  baseline_avg_carbon := 0

theorem dependency_shift_truncate_witness :
    applyDependencyConstraints (mkWorkload 2 [1])
        [{ ts := 0, price := 0, co2_intensity := 0 },
         { ts := 1, price := 0, co2_intensity := 0 }]
        [(1, prereqSchedule)]
      = .ok (shiftedForecast
          [{ ts := 0, price := 0, co2_intensity := 0 },
           { ts := 1, price := 0, co2_intensity := 0 }] 3 0) ∧
    shiftedForecast
        [{ ts := 0, price := 0, co2_intensity := 0 },
         { ts := 1, price := 0, co2_intensity := 0 }] 3 0 ≠ [] := by
  have hdeps : (mkWorkload 2 [1]).dependencies
      = ({ source_workload_id := 1, depends_on_completion := true,
           min_delay_hours := 0 } : WorkloadDependency) :: [] := rfl
  have hes : earliestStartLoop (mkWorkload 2 [1]) [(1, prereqSchedule)]
      (({ source_workload_id := 1, depends_on_completion := true,
          min_delay_hours := 0 } : WorkloadDependency) :: [])
      ({ ts := 0, price := 0, co2_intensity := 0 } : ForecastSample).ts
      = .ok 3 := by
    simp only [earliestStartLoop, dictGet?, if_pos]
    norm_num [prereqSchedule, max_def]
  have h := dependency_shift_truncate (mkWorkload 2 [1])
    { ts := 0, price := 0, co2_intensity := 0 }
    [{ ts := 1, price := 0, co2_intensity := 0 }]
    [(1, prereqSchedule)] hdeps hes
    (by norm_num [mkWorkload]) (by norm_num)
  exact ⟨h.2.1, h.2.2⟩

/-! ### Claim C3: fleet schedules respect dependency constraints -/

/-- C3: whenever `optimize_fleet` succeeds, the schedules follow the
topological `dependency_order` (so in a chain A→B→C, A is processed
before B before C), every dependency edge points backwards in that order,
and each scheduled workload starts no earlier than every completion-gated
prerequisite's `optimal_end` plus that dependency's `min_delay_hours`.
The forecast rows are assumed in non-decreasing timestamp order, per the
forecast interface contract. -/
theorem optimize_fleet_respects_dependencies (cfg : OptimizationConfig)
    (ws : List Workload) (forecast : List ForecastSample)
    (fr : FleetOptimizationResult)
    (hsort : List.Pairwise (fun a b : ForecastSample => a.ts ≤ b.ts) forecast)
    (hok : optimize_fleet cfg ws forecast = .ok fr) :
    fr.schedules.map (fun r => r.workload.id) = fr.dependency_order ∧
    (∀ r ∈ fr.schedules, ∀ dep ∈ r.workload.dependencies,
      fr.dependency_order.indexOf dep.source_workload_id
        < fr.dependency_order.indexOf r.workload.id) ∧
    (∀ r ∈ fr.schedules, ∀ dep ∈ r.workload.dependencies,
      dep.depends_on_completion = true →
      ∃ pr, pr ∈ fr.schedules ∧ pr.workload.id = dep.source_workload_id ∧
        pr.optimal_end + dep.min_delay_hours ≤ r.optimal_start) := by
  cases ws with
  | nil =>
    have h0 : optimize_fleet cfg [] forecast
        = .ok { schedules := [], total_cost_savings := 0,
                total_carbon_savings_kg := 0, total_workloads := 0,
                dependency_order := [] } := rfl
    rw [h0] at hok
    cases hok
    exact ⟨rfl, by simp, by simp⟩
  | cons w0 ws' =>
    cases hdg : dependencyGraphInit (w0 :: ws') with
    | error e =>
      simp only [optimize_fleet, hdg] at hok
      exact Except.noConfusion hok
    | ok g =>
      have hb : buildGraph (w0 :: ws') = .ok g := dependencyGraphInit_ok_build hdg
      simp only [optimize_fleet, hdg] at hok
      cases hts : topological_sort g with
      | error e =>
        simp only [hts] at hok
        exact Except.noConfusion hok
      | ok ord =>
        simp only [hts] at hok
        obtain ⟨hnd, hprereq, hwl⟩ := topological_sort_ok_properties hb hts
        obtain ⟨_, hmaster⟩ := fleetLoop_master cfg g forecast hsort ord hnd
          hprereq hwl ord [] [] [] 0 0 (by simp) rfl (by simp) rfl
          (by simp) (by simp)
        cases hfl : fleetLoop cfg g forecast ord [] [] 0 0 with
        | error e =>
          simp only [hfl] at hok
          exact Except.noConfusion hok
        | ok st =>
          simp only [hfl] at hok
          cases hok
          obtain ⟨h1, h2, h3⟩ := hmaster st hfl
          have hids : st.1.map (fun r => r.workload.id) = ord := by
            simpa using h1
          refine ⟨hids, ?_, h3⟩
          intro r hr dep hdep
          have hedge := h2 r hr dep hdep
          have hrid : r.workload.id ∈ ord := by
            rw [← hids]
            exact List.mem_map.mpr ⟨r, hr, rfl⟩
          exact (hprereq _ hrid _ hedge).2

/-- The graph built for the one-workload fleet `[mkWorkload 1 []]`. -/
def soloGraph : DependencyGraph where
  workloads := workloadsDict [mkWorkload 1 []]
  adjacency_list := [(1, [])]
  reverse_adjacency := [(1, [])]

/-- The schedule `optimize_schedule` computes for `mkWorkload 1 []` on the
single zero-price, zero-carbon forecast row at hour 0. -/
def soloResult : ScheduleResult where
  workload := mkWorkload 1 []
  optimal_start := 0
  optimal_end := 2
  baseline_start := 0
  baseline_end := 2
  optimized_cost := 0
  optimized_carbon_kg := 0
  optimized_avg_price := 0
  optimized_avg_carbon := 0
  baseline_cost := 0
  baseline_carbon_kg := 0
  baseline_avg_price := 0
  baseline_avg_carbon := 0

/-- The fleet result for the one-workload fleet. -/
def soloFleetResult : FleetOptimizationResult where
  schedules := [soloResult]
  total_cost_savings := 0
  total_carbon_savings_kg := 0
  total_workloads := 1
  dependency_order := [1]

theorem optimize_fleet_respects_dependencies_witness :
    soloFleetResult.schedules.map (fun r => r.workload.id)
      = soloFleetResult.dependency_order ∧
    (∀ r ∈ soloFleetResult.schedules, ∀ dep ∈ r.workload.dependencies,
      soloFleetResult.dependency_order.indexOf dep.source_workload_id
        < soloFleetResult.dependency_order.indexOf r.workload.id) ∧
    (∀ r ∈ soloFleetResult.schedules, ∀ dep ∈ r.workload.dependencies,
      dep.depends_on_completion = true →
      ∃ pr, pr ∈ soloFleetResult.schedules ∧
        pr.workload.id = dep.source_workload_id ∧
        pr.optimal_end + dep.min_delay_hours ≤ r.optimal_start) := by
  have h1 : optimize_schedule defaultConfig (mkWorkload 1 [])
      [({ ts := 0, price := 0, co2_intensity := 0 } : ForecastSample)]
      = .ok soloResult := by
    rw [optimize_schedule_noncritical_eq defaultConfig (mkWorkload 1 [])
      { ts := 0, price := 0, co2_intensity := 0 } [] (by decide)]
    norm_num [soloResult, finalState, windowsNeeded, resolutionHours, pyInt,
      minDelayWindows, maxStartIdx, capStartIdx, intRange, searchLoop, tsGet,
      tsAt, pySlice, pyBound, mean, calculateWindowScore, mkWorkload,
      defaultConfig, Workload.energy_kwh, List.getD, Int.toNat_ofNat,
      List.take_of_length_le, List.sum_cons, List.sum_nil]
  have hlook : dictGet? 1 soloGraph.workloads = some (mkWorkload 1 []) := rfl
  have happly : applyDependencyConstraints (mkWorkload 1 [])
      [({ ts := 0, price := 0, co2_intensity := 0 } : ForecastSample)] []
      = .ok [({ ts := 0, price := 0, co2_intensity := 0 } : ForecastSample)] := rfl
  have hval : validateScheduleConstraints soloResult (mkWorkload 1 []) []
      = .ok () := rfl
  have hfleet : fleetLoop defaultConfig soloGraph
      [({ ts := 0, price := 0, co2_intensity := 0 } : ForecastSample)]
      [1] [] [] 0 0
      = .ok ([soloResult], [(1, soloResult)],
             0 + soloResult.cost_savings, 0 + soloResult.carbon_savings_kg) := by
    simp only [fleetLoop, hlook, happly, h1, hval]
    rfl
  have hdg : dependencyGraphInit [mkWorkload 1 []] = .ok soloGraph := rfl
  have hts : topological_sort soloGraph = .ok [1] := rfl
  have hok : optimize_fleet defaultConfig [mkWorkload 1 []]
      [({ ts := 0, price := 0, co2_intensity := 0 } : ForecastSample)]
      = .ok soloFleetResult := by
    simp only [optimize_fleet, hdg, hts, hfleet]
    norm_num [soloFleetResult, ScheduleResult.cost_savings,
      ScheduleResult.carbon_savings_kg, soloResult]
  exact optimize_fleet_respects_dependencies defaultConfig [mkWorkload 1 []]
    [({ ts := 0, price := 0, co2_intensity := 0 } : ForecastSample)]
    soloFleetResult (by simp) hok

end Arboric
